import Mathlib

/-!
Verification of the orpheus-epub-to-audiobook pipeline.

Strings from the Python source are modelled as `List Char`; the functions
below are shallow embeddings of the corresponding Python functions.
-/

set_option maxHeartbeats 1000000

/-- Whitespace characters recognised by Python's str.strip and the regex
class used by the chunker (ASCII subset). -/
def pySpace (c : Char) : Bool :=
  c = ' ' || c = '\t' || c = '\n' || c = '\r' || c = '\x0b' || c = '\x0c'

/-- The non-whitespace characters of a string, in order. -/
def content (l : List Char) : List Char :=
  l.filter (fun c => !(pySpace c))

/-- Python str.lstrip (whitespace-only form). -/
def trimLeft (l : List Char) : List Char := l.dropWhile pySpace

/-- Python str.rstrip (whitespace-only form). -/
def trimRight (l : List Char) : List Char := (l.reverse.dropWhile pySpace).reverse

/-- Python str.strip (whitespace-only form), used as text.strip() in the source. -/
def strip (l : List Char) : List Char := trimRight (trimLeft l)

/-- Python text.split over a single separator character, as in text.split
in chunk_text (src/epub-to-speech.py line 277). -/
def splitOnNewline : List Char → List (List Char)
  | [] => [[]]
  | c :: rest =>
      if c = '\n' then [] :: splitOnNewline rest
      else
        match splitOnNewline rest with
        | [] => [[c]]
        | p :: ps => (c :: p) :: ps

/-- Head of a list is a whitespace character. -/
def headSpace : List Char → Bool
  | [] => false
  | c :: _ => pySpace c

/-- Attach a character to the front of the first piece of a split result. -/
def consHead (c : Char) : List (List Char) → List (List Char)
  | [] => [[c]]
  | p :: ps => (c :: p) :: ps

/-- Worker for splitPunct.  When sep is true we are inside a separator
whitespace run and keep discarding whitespace; otherwise a character of P
followed by whitespace ends the current piece and starts a separator. -/
def splitPunctGo (P : List Char) : Bool → List Char → List (List Char)
  | _, [] => [[]]
  | sep, c :: rest =>
      if sep && pySpace c then splitPunctGo P true rest
      else if P.contains c && headSpace rest then [c] :: splitPunctGo P true rest
      else consHead c (splitPunctGo P false rest)

/-- Embedding of Python re.split with a lookbehind pattern: the string is
cut after every character of P that is followed by a run of whitespace; the
whitespace run is the separator and is removed.  This models
re.split of the sentence pattern and of the clause pattern in
chunk_text (src/epub-to-speech.py lines 287 and 291). -/
def splitPunct (P : List Char) (l : List Char) : List (List Char) :=
  splitPunctGo P false l

/-- Sentence-ending punctuation of the chunker's sentence regex. -/
def sentencePunct : List Char := ['.', '!', '?']

/-- Clause punctuation of the chunker's clause regex. -/
def clausePunct : List Char := [',', ';', ':']

/-- All punctuation that can start a sentence or clause boundary. -/
def allPunct : List Char := ['.', '!', '?', ',', ';', ':']

/-- Chunker state: produced chunks so far and the running buffer
(chunks, current_chunk in the Python source). -/
abbrev ChunkSt := List (List Char) × List Char

/-- Inner loop body of chunk_text over a clause part
(src/epub-to-speech.py lines 292-298). -/
def procPart (maxLen : Nat) (st : ChunkSt) (part : List Char) : ChunkSt :=
  let chunks := st.1
  let cc := st.2
  if cc.length + part.length ≤ maxLen then
    (chunks, cc ++ part ++ [' '])
  else if cc.isEmpty then
    (chunks, part ++ [' '])
  else
    (chunks ++ [strip cc], part ++ [' '])

/-- Loop body of chunk_text over a sentence
(src/epub-to-speech.py lines 288-303). -/
def procSentence (maxLen : Nat) (st : ChunkSt) (sentence : List Char) : ChunkSt :=
  if maxLen < sentence.length then
    (splitPunct clausePunct sentence).foldl (procPart maxLen) st
  else
    let chunks := st.1
    let cc := st.2
    if cc.length + sentence.length ≤ maxLen then
      (chunks, cc ++ sentence ++ [' '])
    else
      (chunks ++ [strip cc], sentence ++ [' '])

/-- Loop body of chunk_text over a paragraph
(src/epub-to-speech.py lines 283-308). -/
def procParagraph (maxLen : Nat) (st : ChunkSt) (p : List Char) : ChunkSt :=
  if maxLen < p.length then
    (splitPunct sentencePunct p).foldl (procSentence maxLen) st
  else
    let chunks := st.1
    let cc := st.2
    if cc.length + p.length + 1 ≤ maxLen then
      (chunks, cc ++ p ++ ['\n'])
    else
      (chunks ++ [strip cc], p ++ ['\n'])

/-- chunk_text before the merge post-pass
(src/epub-to-speech.py lines 276-312). -/
def chunksRaw (text : List Char) (maxLen : Nat) : List (List Char) :=
  let paragraphs := (splitOnNewline text).filter (fun p => !(strip p).isEmpty)
  let st := paragraphs.foldl (procParagraph maxLen) ([], [])
  if (strip st.2).isEmpty then st.1 else st.1 ++ [strip st.2]

/-- Worker for the merge post-pass: c is the chunk at the current index
and the list holds the chunks after it. -/
def mergeLoop (minLen maxLen : Nat) (c : List Char) : List (List Char) → List (List Char)
  | [] => [c]
  | c2 :: rest =>
      if c.length < minLen then
        if c.length + c2.length ≤ maxLen then
          mergeLoop minLen maxLen (c ++ ' ' :: c2) rest
        else
          c :: mergeLoop minLen maxLen c2 rest
      else
        c :: mergeLoop minLen maxLen c2 rest

/-- The merge post-pass of chunk_text: a below-minLen chunk is merged with
its successor when the sum of the two lengths does not exceed maxLen
(src/epub-to-speech.py lines 315-324). -/
def mergeChunks (minLen maxLen : Nat) : List (List Char) → List (List Char)
  | [] => []
  | c :: rest => mergeLoop minLen maxLen c rest

/-- Embedding of chunk_text (src/epub-to-speech.py lines 271-326).
min_length is computed as max(50, max_length // 10) as on line 274. -/
def chunk_text (text : List Char) (maxLen : Nat) : List (List Char) :=
  mergeChunks (Nat.max 50 (maxLen / 10)) maxLen (chunksRaw text maxLen)

/-- An adjacent pair starting a sentence or clause boundary: a character of
P immediately followed by whitespace (the shape both chunking regexes cut at). -/
def badPair (P : List Char) (a b : Char) : Bool := P.contains a && pySpace b

/-- A string with no internal sentence or clause boundary with respect to
punctuation set P: no character of P inside it is followed by whitespace.
A true result on allPunct means the string is an atomic clause the
chunker cannot split further. -/
def pairFree (P : List Char) : List Char → Bool
  | [] => true
  | [_] => true
  | a :: b :: rest => !(badPair P a b) && pairFree P (b :: rest)

/-- A per-chapter audio artifact as seen by the assembler: whether the
file exists on disk and its measured duration in seconds
(durations modelled as rationals). -/
structure ChapterAudio where
  fileExists : Bool
  duration : ℚ
deriving DecidableEq

/-- A chapter marker: start and end offset of the chapter inside the
concatenated audiobook, in seconds. -/
structure ChapterMarker where
  startTime : ℚ
  endTime : ℚ
deriving DecidableEq, Repr

/-- A chapter is kept by merge_chapter_wav_files when its file exists and
its duration exceeds the 0.1 s negligibility threshold
(src/epub_to_speech_oute.py lines 394-401). -/
def keepChapter (c : ChapterAudio) : Bool :=
  c.fileExists && !(decide (c.duration ≤ 1/10))

/-- The chapter-marker construction loop of merge_chapter_wav_files
(src/epub_to_speech_oute.py lines 393-421): walk the chapter files with a
running cumulative position, skipping missing files and files of
negligible duration. -/
def chapter_info_list : ℚ → List ChapterAudio → List ChapterMarker
  | _, [] => []
  | pos, c :: rest =>
      if keepChapter c then
        ⟨pos, pos + c.duration⟩ :: chapter_info_list (pos + c.duration) rest
      else
        chapter_info_list pos rest

/-- Marker list produced by merge_chapter_wav_files for a given (already
numerically sorted) list of chapter files, starting at offset 0
(src/epub_to_speech_oute.py line 382). -/
def merge_chapter_wav_files (chapters : List ChapterAudio) : List ChapterMarker :=
  chapter_info_list 0 chapters

/-- Association-list lookup, first match wins, modelling a Python dict read. -/
def alookup {α β : Type} [DecidableEq α] : List (α × β) → α → Option β
  | [], _ => none
  | (k, v) :: rest, a => if k = a then some v else alookup rest a

/-- First-occurrence deduplication worker; seen holds locators already kept. -/
def dedupFirstAux {α : Type} [DecidableEq α] (seen : List α) : List α → List α
  | [] => []
  | x :: xs =>
      if x ∈ seen then dedupFirstAux seen xs
      else x :: dedupFirstAux (x :: seen) xs

/-- Keep only the first occurrence of each element, preserving order. -/
def dedupFirst {α : Type} [DecidableEq α] (l : List α) : List α :=
  dedupFirstAux [] l

/-- Index of the first occurrence of an element in a list (length of the
list when absent). -/
def idxOf {α : Type} [DecidableEq α] (a : α) : List α → Nat
  | [] => 0
  | b :: l => if b = a then 0 else idxOf a l + 1

/-- The spine-placement loop of extract_chapters_from_epub
(src/epub_to_speech_oute.py lines 212-221): walk the filtered spine
locators, placing each not-yet-processed locator's candidate. -/
def placeLoop {α β : Type} [DecidableEq α] (cands : List (α × β)) :
    List α → List α → List (α × β)
  | [], _ => []
  | h :: hs, processed =>
      if h ∈ processed then placeLoop cands hs processed
      else
        match alookup cands h with
        | some d => (h, d) :: placeLoop cands hs (h :: processed)
        | none => placeLoop cands hs processed

/-- Reading-order reconstruction of extract_chapters_from_epub
(src/epub_to_speech_oute.py lines 186-246): spine entries whose locator has
extracted content are placed first, in spine order, first occurrence only;
the remaining candidates are appended in extraction order. -/
def ordered_chapters {α β : Type} [DecidableEq α] (cands : List (α × β))
    (spine : List α) : List (α × β) :=
  let spineOrder := spine.filter (fun h => decide (h ∈ cands.map Prod.fst))
  let placed := placeLoop cands spineOrder []
  placed ++ cands.filter (fun c => decide (¬(c.1 ∈ placed.map Prod.fst)))

/-- A content document of the container, as consumed by the extraction
loop: its resolved locator (None when no usable path was found), its
resolved title and its normalized text. -/
structure EpubItem (α : Type) where
  href : Option α
  title : List Char
  text : List Char

/-- The per-locator candidate record stored in extracted_chapters_data. -/
structure CandData where
  title : List Char
  content : List Char
deriving DecidableEq, Repr

/-- Python dict assignment d[k] = v: an existing key keeps its position
but its value is replaced; a new key is appended. -/
def dictInsert {α : Type} [DecidableEq α] (d : List (α × CandData)) (k : α)
    (v : CandData) : List (α × CandData) :=
  if k ∈ d.map Prod.fst then d.map (fun p => if p.1 = k then (k, v) else p)
  else d ++ [(k, v)]

/-- The candidate-extraction loop of extract_chapters_from_epub
(src/epub_to_speech_oute.py lines 123-181): items without a locator or with
normalized text shorter than 100 characters are skipped, the rest are
written into the extracted_chapters_data dict keyed by locator. -/
def extracted_chapters_data {α : Type} [DecidableEq α]
    (items : List (EpubItem α)) : List (α × CandData) :=
  items.foldl
    (fun d it =>
      match it.href with
      | none => d
      | some h =>
          if it.text.length < 100 then d
          else dictInsert d h ⟨it.title, it.text⟩)
    []

/-- The items with locator loc that survive the minimum-length filter. -/
def qualifyingFor {α : Type} [DecidableEq α] (items : List (EpubItem α))
    (loc : α) : List (EpubItem α) :=
  items.filter (fun it => decide (it.href = some loc) && !(decide (it.text.length < 100)))

/-- The locators of qualifying items, in extraction order (with repeats). -/
def qualifyingHrefs {α : Type} [DecidableEq α] (items : List (EpubItem α)) : List α :=
  items.filterMap
    (fun it => if it.text.length < 100 then none else it.href)

/-- A chapter as consumed by the synthesis loop. -/
structure ChapterC where
  title : List Char
  body : List Char
deriving DecidableEq

/-- Log events emitted by the per-chapter loop of process_epub_chapters. -/
inductive LogEvent
  | processing (i : Nat) (title : List Char)
  | completed (i : Nat)
  | errorSkip (i : Nat) (title : List Char)
  | stopped
deriving DecidableEq

/-- The per-chapter loop of process_epub_chapters
(src/epub_to_speech_oute.py lines 589-618): check the stop callback, log
the chapter being processed, synthesize, and on success record the output
file while on failure log the error with the chapter title and continue.
Returns (synthesized chapters, log, completed-without-stop flag). -/
def process_epub_chapters (synthOk : ChapterC → Bool) (checkStop : Nat → Bool) :
    Nat → List ChapterC → List ChapterC × List LogEvent × Bool
  | _, [] => ([], [], true)
  | i, ch :: rest =>
      if checkStop i then ([], [LogEvent.stopped], false)
      else if synthOk ch then
        let r := process_epub_chapters synthOk checkStop (i + 1) rest
        (ch :: r.1, LogEvent.processing i ch.title :: LogEvent.completed i :: r.2.1, r.2.2)
      else
        let r := process_epub_chapters synthOk checkStop (i + 1) rest
        (r.1, LogEvent.processing i ch.title :: LogEvent.errorSkip i ch.title :: r.2.1, r.2.2)

/-- The worker state read by the overwrite-confirmation polling loop:
overwrite_response and _is_running of ConversionWorker
(src/epub_to_speech_oute_ui.py lines 44-45). -/
structure WorkerState where
  overwriteResponse : Option Bool
  isRunning : Bool

/-- The polling loop of ConversionWorker.handle_overwrite_request
(src/epub_to_speech_oute_ui.py lines 49-59): while overwrite_response is
unset, return False as soon as _is_running goes false, else sleep and poll
again.  env t is the state observed at the t-th poll; the fuel bounds how
many polls we model, with none meaning the loop was still blocked. -/
def handle_overwrite_request (env : Nat → WorkerState) : Nat → Nat → Option Bool
  | 0, _ => none
  | fuel + 1, t =>
      match (env t).overwriteResponse with
      | some r => some r
      | none =>
          if (env t).isRunning then handle_overwrite_request env fuel (t + 1)
          else some false

/-- How far a synthesis attempt got before failing. -/
inductive SynthOutcome
  | ok
  | failBeforeWrite
  | failAfterWrite
deriving DecidableEq

/-- The exception cleanup of generate_speech_for_chapter
(src/epub_to_speech_oute.py lines 358-360): if the output file exists,
os.remove is attempted inside a try whose except OSError: pass swallows a
removal failure.  removeOk says whether os.remove succeeds; when it fails
the file stays on disk. -/
def cleanupOnFailure (removeOk present : Bool) : Bool :=
  if present then (if removeOk then false else present) else present

/-- Embedding of generate_speech_for_chapter
(src/epub_to_speech_oute.py lines 261-361) at the artifact level: given how
the synthesis attempt ended, whether os.remove would succeed, and whether
the output file already existed, return (success flag, whether the output
file exists afterwards). -/
def generate_speech_for_chapter (outcome : SynthOutcome) (removeOk fileBefore : Bool) :
    Bool × Bool :=
  match outcome with
  | .ok => (true, true)
  | .failBeforeWrite => (false, cleanupOnFailure removeOk fileBefore)
  | .failAfterWrite => (false, cleanupOnFailure removeOk true)

/-! ## Non-whitespace content preservation machinery -/

theorem content_nil : content [] = [] := rfl

theorem content_cons (c : Char) (l : List Char) :
    content (c :: l) = if pySpace c then content l else c :: content l := by
  by_cases h : pySpace c <;> simp [content, List.filter_cons, h]

theorem content_append (l1 l2 : List Char) :
    content (l1 ++ l2) = content l1 ++ content l2 :=
  List.filter_append l1 l2

theorem content_space {c : Char} (h : pySpace c = true) (l : List Char) :
    content (c :: l) = content l := by
  simp [content_cons, h]

theorem content_dropWhile (l : List Char) :
    content (l.dropWhile pySpace) = content l := by
  induction l with
  | nil => rfl
  | cons c rest ih =>
      rw [List.dropWhile_cons]
      by_cases h : pySpace c
      · simp only [h, if_true, ih, content_space h]
      · simp [h]

theorem content_reverse (l : List Char) :
    content l.reverse = (content l).reverse :=
  List.filter_reverse _ l

theorem content_trimRight (l : List Char) :
    content (trimRight l) = content l := by
  unfold trimRight
  rw [content_reverse, content_dropWhile, content_reverse, List.reverse_reverse]

theorem content_strip (l : List Char) : content (strip l) = content l := by
  unfold strip trimLeft
  rw [content_trimRight, content_dropWhile]

theorem content_of_strip_empty {l : List Char} (h : (strip l).isEmpty = true) :
    content l = [] := by
  rw [← content_strip l, List.isEmpty_iff.mp h, content_nil]

theorem flatten_consHead (c : Char) (L : List (List Char)) :
    (consHead c L).flatten = c :: L.flatten := by
  cases L <;> simp [consHead]

theorem content_flatten_splitOnNewline (t : List Char) :
    content (splitOnNewline t).flatten = content t := by
  induction t with
  | nil => rfl
  | cons c rest ih =>
      by_cases h : c = '\n'
      · subst h
        simpa [splitOnNewline, content_space (show pySpace '\n' = true from rfl)] using ih
      · simp only [splitOnNewline, h, if_false]
        cases hs : splitOnNewline rest with
        | nil =>
            rw [hs] at ih
            simp only [List.flatten_nil] at ih
            simp [List.flatten_cons, content_cons, ← ih]
        | cons p ps =>
            rw [hs] at ih
            have : ((c :: p) :: ps).flatten = c :: (p :: ps).flatten := by
              simp [List.flatten_cons]
            rw [this, content_cons, content_cons, ih]

theorem content_flatten_splitPunctGo (P : List Char)
    (hP : ∀ c, P.contains c = true → pySpace c = false) :
    ∀ (l : List Char) (sep : Bool),
      content (splitPunctGo P sep l).flatten = content l := by
  intro l
  induction l with
  | nil => intro sep; rfl
  | cons c rest ih =>
      intro sep
      cases h1 : sep && pySpace c with
      | true =>
          have hsp : pySpace c = true := ((Bool.and_eq_true _ _).mp h1).2
          simp only [splitPunctGo, h1, if_true]
          rw [ih true, content_space hsp]
      | false =>
          cases h2 : P.contains c && headSpace rest with
          | true =>
              have hc : pySpace c = false := hP c ((Bool.and_eq_true _ _).mp h2).1
              simp only [splitPunctGo, h1, h2]
              simp [content_cons, hc, ih true]
          | false =>
              simp only [splitPunctGo, h1, h2]
              simp [flatten_consHead, content_cons, ih false]

theorem content_flatten_splitPunct (P : List Char)
    (hP : ∀ c, P.contains c = true → pySpace c = false) (l : List Char) :
    content (splitPunct P l).flatten = content l :=
  content_flatten_splitPunctGo P hP l false

theorem content_flatten_filter_blank (ps : List (List Char)) :
    content (ps.filter (fun p => !(strip p).isEmpty)).flatten =
      content ps.flatten := by
  induction ps with
  | nil => rfl
  | cons p rest ih =>
      cases h : (strip p).isEmpty with
      | true =>
          have hc : content p = [] := content_of_strip_empty h
          simp [List.filter_cons, h, List.flatten_cons, content_append, hc, ih]
      | false =>
          simp [List.filter_cons, h, List.flatten_cons, content_append, ih]

theorem content_single_space : content [' '] = [] := rfl

theorem content_single_newline : content ['\n'] = [] := rfl

theorem procPart_content (maxLen : Nat) (st : ChunkSt) (part : List Char) :
    content ((procPart maxLen st part).1.flatten ++ (procPart maxLen st part).2) =
      content (st.1.flatten ++ st.2) ++ content part := by
  unfold procPart
  by_cases h1 : st.2.length + part.length ≤ maxLen
  · simp [h1, content_append, content_single_space]
  · by_cases h2 : st.2.isEmpty
    · have h3 : st.2 = [] := List.isEmpty_iff.mp h2
      simp [h1, h2, h3, content_append, content_single_space, content_nil]
    · simp [h1, h2, content_append, content_single_space, content_strip,
        content_nil, List.flatten_append]

theorem foldl_content {f : ChunkSt → List Char → ChunkSt}
    (hstep : ∀ st u, content ((f st u).1.flatten ++ (f st u).2) =
      content (st.1.flatten ++ st.2) ++ content u) :
    ∀ (ps : List (List Char)) (st : ChunkSt),
      content ((ps.foldl f st).1.flatten ++ (ps.foldl f st).2) =
        content (st.1.flatten ++ st.2) ++ content ps.flatten := by
  intro ps
  induction ps with
  | nil => intro st; simp [content_nil]
  | cons u rest ih =>
      intro st
      rw [List.foldl_cons, ih (f st u), hstep st u, List.flatten_cons,
        content_append, List.append_assoc, content_append]

theorem clausePunct_not_space : ∀ c, clausePunct.contains c = true → pySpace c = false := by
  intro c hc
  simp [clausePunct] at hc
  rcases hc with rfl | rfl | rfl <;> rfl

theorem sentencePunct_not_space : ∀ c, sentencePunct.contains c = true → pySpace c = false := by
  intro c hc
  simp [sentencePunct] at hc
  rcases hc with rfl | rfl | rfl <;> rfl

theorem allPunct_not_space : ∀ c, allPunct.contains c = true → pySpace c = false := by
  intro c hc
  simp [allPunct] at hc
  rcases hc with rfl | rfl | rfl | rfl | rfl | rfl <;> rfl

theorem procSentence_content (maxLen : Nat) (st : ChunkSt) (s : List Char) :
    content ((procSentence maxLen st s).1.flatten ++ (procSentence maxLen st s).2) =
      content (st.1.flatten ++ st.2) ++ content s := by
  unfold procSentence
  by_cases h0 : maxLen < s.length
  · simp only [h0, if_true]
    rw [foldl_content (procPart_content maxLen)]
    rw [content_flatten_splitPunct clausePunct clausePunct_not_space]
  · by_cases h1 : st.2.length + s.length ≤ maxLen
    · simp [h0, h1, content_append, content_single_space, content_nil]
    · simp [h0, h1, content_append, content_single_space, content_strip,
        content_nil, List.flatten_append]

theorem procParagraph_content (maxLen : Nat) (st : ChunkSt) (p : List Char) :
    content ((procParagraph maxLen st p).1.flatten ++ (procParagraph maxLen st p).2) =
      content (st.1.flatten ++ st.2) ++ content p := by
  unfold procParagraph
  by_cases h0 : maxLen < p.length
  · simp only [h0, if_true]
    rw [foldl_content (procSentence_content maxLen)]
    rw [content_flatten_splitPunct sentencePunct sentencePunct_not_space]
  · by_cases h1 : st.2.length + p.length + 1 ≤ maxLen
    · simp [h0, h1, content_append, content_single_newline, content_nil]
    · simp [h0, h1, content_append, content_single_newline, content_strip,
        content_nil, List.flatten_append]

theorem chunksRaw_content (text : List Char) (maxLen : Nat) :
    content (chunksRaw text maxLen).flatten = content text := by
  have hfold := foldl_content (procParagraph_content maxLen)
    ((splitOnNewline text).filter (fun p => !(strip p).isEmpty)) ([], [])
  simp only [List.flatten_nil, List.nil_append, content_nil] at hfold
  rw [content_flatten_filter_blank, content_flatten_splitOnNewline,
    content_append] at hfold
  unfold chunksRaw
  cases h : (strip (List.foldl (procParagraph maxLen) ([], [])
      (List.filter (fun p => !(strip p).isEmpty) (splitOnNewline text))).2).isEmpty with
  | true =>
      rw [if_pos h]
      have h2 := content_of_strip_empty h
      rw [h2, List.append_nil] at hfold
      exact hfold
  | false =>
      rw [if_neg (by simp [h])]
      rw [List.flatten_append, List.flatten_cons, List.flatten_nil,
        List.append_nil, content_append, content_strip]
      exact hfold

theorem mergeLoop_content (minLen maxLen : Nat) :
    ∀ (l : List (List Char)) (c : List Char),
      content (mergeLoop minLen maxLen c l).flatten = content (c :: l).flatten := by
  intro l
  induction l with
  | nil => intro c; rfl
  | cons c2 rest ih =>
      intro c
      unfold mergeLoop
      by_cases h1 : c.length < minLen
      · by_cases h2 : c.length + c2.length ≤ maxLen
        · simp only [h1, h2, if_true]
          rw [ih]
          simp [content_append, content_space (show pySpace ' ' = true from rfl)]
        · simp only [h1, h2, if_true, if_false, List.flatten_cons]
          rw [content_append, content_append, ih, List.flatten_cons, content_append]
      · simp only [h1, if_false, List.flatten_cons]
        rw [content_append, content_append, ih, List.flatten_cons, content_append]

theorem mergeChunks_content (minLen maxLen : Nat) (l : List (List Char)) :
    content (mergeChunks minLen maxLen l).flatten = content l.flatten := by
  cases l with
  | nil => rfl
  | cons c rest => exact mergeLoop_content minLen maxLen rest c

/-- Claim C1: for every input text and maxLen, concatenating the chunks
produced by chunk_text and ignoring whitespace reconstructs exactly the
non-whitespace character sequence of the original text, so no
non-whitespace character is ever dropped. -/
theorem claim_C1 (text : List Char) (maxLen : Nat) :
    content (chunk_text text maxLen).flatten = content text := by
  unfold chunk_text
  rw [mergeChunks_content, chunksRaw_content]

/-! ## Atomic-clause (pairFree) machinery for the chunk-length bounds -/

theorem pairFree_nil (P : List Char) : pairFree P [] = true := rfl

theorem pairFree_single (P : List Char) (a : Char) : pairFree P [a] = true := rfl

theorem pairFree_cons_cons (P : List Char) (a b : Char) (l : List Char) :
    pairFree P (a :: b :: l) = (!(badPair P a b) && pairFree P (b :: l)) := rfl

theorem pairFree_tail (P : List Char) (a : Char) (l : List Char)
    (h : pairFree P (a :: l) = true) : pairFree P l = true := by
  cases l with
  | nil => rfl
  | cons b t =>
      rw [pairFree_cons_cons, Bool.and_eq_true] at h
      exact h.2

theorem pairFree_append_right (P : List Char) :
    ∀ (l1 l2 : List Char), pairFree P (l1 ++ l2) = true → pairFree P l2 = true := by
  intro l1
  induction l1 with
  | nil => intro l2 h; exact h
  | cons a t ih =>
      intro l2 h
      exact ih l2 (pairFree_tail P a (t ++ l2) h)

theorem pairFree_append_left (P : List Char) :
    ∀ (l1 l2 : List Char), pairFree P (l1 ++ l2) = true → pairFree P l1 = true
  | [], _, _ => rfl
  | [_], _, _ => rfl
  | a :: b :: t, l2, h => by
      rw [List.cons_append, List.cons_append, pairFree_cons_cons,
        Bool.and_eq_true] at h
      rw [pairFree_cons_cons, Bool.and_eq_true]
      exact ⟨h.1, pairFree_append_left P (b :: t) l2 (by simpa using h.2)⟩

theorem pairFree_of_infix (P : List Char) (s p t l : List Char)
    (heq : l = s ++ p ++ t) (h : pairFree P l = true) : pairFree P p = true := by
  subst heq
  have h1 : pairFree P (p ++ t) = true := pairFree_append_right P s (p ++ t) (by
    simpa [List.append_assoc] using h)
  exact pairFree_append_left P p t h1

theorem contains_append_eq (l1 l2 : List Char) (a : Char) :
    (l1 ++ l2).contains a = (l1.contains a || l2.contains a) := by
  simp only [List.contains, List.elem_eq_mem, List.mem_append]
  by_cases h1 : a ∈ l1 <;> by_cases h2 : a ∈ l2 <;> simp [h1, h2]

theorem badPair_append (P1 P2 : List Char) (a b : Char) :
    badPair (P1 ++ P2) a b = (badPair P1 a b || badPair P2 a b) := by
  simp only [badPair, contains_append_eq]
  by_cases h1 : P1.contains a <;> by_cases h2 : P2.contains a <;>
    by_cases h3 : pySpace b <;> simp [h1, h2, h3]

theorem pairFree_append_punct (P1 P2 : List Char) :
    ∀ (l : List Char), pairFree P1 l = true → pairFree P2 l = true →
      pairFree (P1 ++ P2) l = true
  | [], _, _ => rfl
  | [_], _, _ => rfl
  | a :: b :: t, h1, h2 => by
      rw [pairFree_cons_cons, Bool.and_eq_true] at h1 h2 ⊢
      refine ⟨?_, pairFree_append_punct P1 P2 (b :: t) h1.2 h2.2⟩
      rw [badPair_append]
      simp only [Bool.not_eq_true'] at h1 h2 ⊢
      rw [h1.1, h2.1]
      rfl

theorem allPunct_eq : allPunct = sentencePunct ++ clausePunct := rfl

theorem pairFree_allPunct (l : List Char) (h1 : pairFree sentencePunct l = true)
    (h2 : pairFree clausePunct l = true) : pairFree allPunct l = true := by
  rw [allPunct_eq]
  exact pairFree_append_punct _ _ l h1 h2

/-! ## strip length and infix lemmas -/

theorem length_trimLeft_le (l : List Char) : (trimLeft l).length ≤ l.length :=
  (List.dropWhile_sublist pySpace).length_le

theorem length_trimRight_le (l : List Char) : (trimRight l).length ≤ l.length := by
  unfold trimRight
  rw [List.length_reverse]
  calc (l.reverse.dropWhile pySpace).length ≤ l.reverse.length :=
        (List.dropWhile_sublist pySpace).length_le
    _ = l.length := List.length_reverse l

theorem length_strip_le (l : List Char) : (strip l).length ≤ l.length :=
  le_trans (length_trimRight_le (trimLeft l)) (length_trimLeft_le l)

theorem trimLeft_append (l1 l2 : List Char) :
    trimLeft (l1 ++ l2) =
      if (trimLeft l1).isEmpty then trimLeft l2 else trimLeft l1 ++ l2 := by
  induction l1 with
  | nil => simp [trimLeft]
  | cons c t ih =>
      by_cases h : pySpace c
      · simpa [trimLeft, List.dropWhile_cons, h] using ih
      · simp [trimLeft, List.dropWhile_cons, h]

theorem trimRight_append_space (c : Char) (hc : pySpace c = true) (m : List Char) :
    trimRight (m ++ [c]) = trimRight m := by
  unfold trimRight
  rw [List.reverse_append]
  simp [List.dropWhile_cons, hc]

theorem strip_append_space (c : Char) (hc : pySpace c = true) (l : List Char) :
    strip (l ++ [c]) = strip l := by
  unfold strip
  rw [trimLeft_append]
  by_cases h : (trimLeft l).isEmpty
  · have h1 : trimLeft [c] = [] := by simp [trimLeft, List.dropWhile_cons, hc]
    rw [if_pos h, h1, List.isEmpty_iff.mp h]
  · rw [if_neg h, trimRight_append_space c hc]

theorem trimRight_decomp (m : List Char) :
    m = trimRight m ++ (m.reverse.takeWhile pySpace).reverse := by
  unfold trimRight
  conv_lhs => rw [← List.reverse_reverse m,
    ← List.takeWhile_append_dropWhile pySpace m.reverse]
  rw [List.reverse_append]

theorem strip_infix (l : List Char) :
    ∃ s t, l = s ++ strip l ++ t := by
  refine ⟨l.takeWhile pySpace, ((trimLeft l).reverse.takeWhile pySpace).reverse, ?_⟩
  conv_lhs => rw [← List.takeWhile_append_dropWhile pySpace l]
  rw [List.append_assoc]
  congr 1
  exact trimRight_decomp (trimLeft l)

theorem pairFree_strip (P : List Char) (l : List Char)
    (h : pairFree P l = true) : pairFree P (strip l) = true := by
  obtain ⟨s, t, heq⟩ := strip_infix l
  exact pairFree_of_infix P s (strip l) t l heq h

/-! ## splitPunct pieces: no internal boundary, and infix of the input -/

theorem splitPunctGo_cons_eq (P : List Char) (sep : Bool) (c : Char)
    (rest : List Char) :
    splitPunctGo P sep (c :: rest) =
      if sep && pySpace c then splitPunctGo P true rest
      else if P.contains c && headSpace rest then [c] :: splitPunctGo P true rest
      else consHead c (splitPunctGo P false rest) := rfl

theorem splitPunctGo_ne_nil (P : List Char) :
    ∀ (l : List Char) (sep : Bool), splitPunctGo P sep l ≠ [] := by
  intro l
  induction l with
  | nil => intro sep; simp [splitPunctGo]
  | cons c rest ih =>
      intro sep
      rw [splitPunctGo_cons_eq]
      cases h1 : sep && pySpace c with
      | true => rw [if_pos rfl]; exact ih true
      | false =>
          rw [if_neg (by simp)]
          cases h2 : P.contains c && headSpace rest with
          | true => rw [if_pos rfl]; simp
          | false =>
              rw [if_neg (by simp)]
              cases hg : splitPunctGo P false rest <;> simp [consHead]

theorem splitPunctGo_false_head_pre (P : List Char) :
    ∀ (l : List Char), ∃ q qs t,
      splitPunctGo P false l = q :: qs ∧ l = q ++ t := by
  intro l
  induction l with
  | nil => exact ⟨[], [], [], rfl, rfl⟩
  | cons c rest ih =>
      cases h2 : P.contains c && headSpace rest with
      | true =>
          refine ⟨[c], splitPunctGo P true rest, rest, ?_, rfl⟩
          rw [splitPunctGo_cons_eq, if_neg (by simp), h2, if_pos rfl]
      | false =>
          obtain ⟨q, qs, t, hgo, hpre⟩ := ih
          refine ⟨c :: q, qs, t, ?_, by rw [List.cons_append, ← hpre]⟩
          rw [splitPunctGo_cons_eq, if_neg (by simp), h2,
            if_neg (by simp), hgo]
          rfl

theorem splitPunctGo_mem_infix (P : List Char) :
    ∀ (l : List Char) (sep : Bool) (p : List Char),
      p ∈ splitPunctGo P sep l → ∃ s t, l = s ++ p ++ t := by
  intro l
  induction l with
  | nil =>
      intro sep p hp
      simp [splitPunctGo] at hp
      exact ⟨[], [], by simp [hp]⟩
  | cons c rest ih =>
      intro sep p hp
      rw [splitPunctGo_cons_eq] at hp
      cases h1 : sep && pySpace c with
      | true =>
          rw [h1, if_pos rfl] at hp
          obtain ⟨s, t, heq⟩ := ih true p hp
          exact ⟨c :: s, t, by rw [heq]; rfl⟩
      | false =>
          rw [h1, if_neg (by simp)] at hp
          cases h2 : P.contains c && headSpace rest with
          | true =>
              rw [h2, if_pos rfl] at hp
              rcases List.mem_cons.mp hp with rfl | hp
              · exact ⟨[], rest, rfl⟩
              · obtain ⟨s, t, heq⟩ := ih true p hp
                exact ⟨c :: s, t, by rw [heq]; rfl⟩
          | false =>
              rw [h2, if_neg (by simp)] at hp
              obtain ⟨q, qs, t0, hgo, hpre⟩ := splitPunctGo_false_head_pre P rest
              rw [hgo] at hp
              simp only [consHead, List.mem_cons] at hp
              rcases hp with rfl | hp
              · exact ⟨[], t0, by rw [hpre]; rfl⟩
              · have hp2 : p ∈ splitPunctGo P false rest := by
                  rw [hgo]; exact List.mem_cons_of_mem q hp
                obtain ⟨s, t, heq⟩ := ih false p hp2
                exact ⟨c :: s, t, by rw [heq]; rfl⟩

theorem splitPunctGo_mem_pairFree (P : List Char) :
    ∀ (l : List Char) (sep : Bool) (p : List Char),
      p ∈ splitPunctGo P sep l → pairFree P p = true := by
  intro l
  induction l with
  | nil =>
      intro sep p hp
      simp [splitPunctGo] at hp
      simp [hp, pairFree_nil]
  | cons c rest ih =>
      intro sep p hp
      rw [splitPunctGo_cons_eq] at hp
      cases h1 : sep && pySpace c with
      | true =>
          rw [h1, if_pos rfl] at hp
          exact ih true p hp
      | false =>
          rw [h1, if_neg (by simp)] at hp
          cases h2 : P.contains c && headSpace rest with
          | true =>
              rw [h2, if_pos rfl] at hp
              rcases List.mem_cons.mp hp with rfl | hp
              · exact pairFree_single P c
              · exact ih true p hp
          | false =>
              rw [h2, if_neg (by simp)] at hp
              obtain ⟨q, qs, t0, hgo, hpre⟩ := splitPunctGo_false_head_pre P rest
              rw [hgo] at hp
              simp only [consHead, List.mem_cons] at hp
              rcases hp with rfl | hp
              · have hq : pairFree P q = true := by
                  refine ih false q ?_
                  rw [hgo]; exact List.mem_cons_self q qs
                cases hq2 : q with
                | nil => exact pairFree_single P c
                | cons d q' =>
                    rw [pairFree_cons_cons, Bool.and_eq_true]
                    refine ⟨?_, by rw [← hq2]; exact hq⟩
                    have hd : pySpace d = headSpace rest := by
                      rw [hpre, hq2]; rfl
                    rw [Bool.not_eq_true', badPair, hd]
                    exact h2
              · refine ih false p ?_
                rw [hgo]; exact List.mem_cons_of_mem q hp

theorem splitPunct_mem_pairFree (P : List Char) (l p : List Char)
    (hp : p ∈ splitPunct P l) : pairFree P p = true :=
  splitPunctGo_mem_pairFree P l false p hp

theorem splitPunct_mem_infix (P : List Char) (l p : List Char)
    (hp : p ∈ splitPunct P l) : ∃ s t, l = s ++ p ++ t :=
  splitPunctGo_mem_infix P l false p hp

/-! ## Chunk-length invariants up to the merge pass -/

theorem foldl_inv {σ : Type} {f : σ → List Char → σ} {Inv : σ → Prop}
    (Q : List Char → Prop) {ps : List (List Char)}
    (hps : ∀ u ∈ ps, Q u)
    (hstep : ∀ st u, Q u → Inv st → Inv (f st u)) :
    ∀ st, Inv st → Inv (ps.foldl f st) := by
  induction ps with
  | nil => intro st h; exact h
  | cons u rest ih =>
      intro st h
      rw [List.foldl_cons]
      exact ih (fun v hv => hps v (List.mem_cons_of_mem u hv))
        (f st u) (hstep st u (hps u (List.mem_cons_self u rest)) h)

/-- The chunk/buffer invariant maintained by the accumulation loops:
every emitted chunk fits in maxLen or is an atomic clause, and the
stripped running buffer does too. -/
def chunkInv (maxLen : Nat) (st : ChunkSt) : Prop :=
  (∀ c ∈ st.1, c.length ≤ maxLen ∨ pairFree allPunct c = true) ∧
  ((strip st.2).length ≤ maxLen ∨ pairFree allPunct (strip st.2) = true)

theorem strip_snoc_space_le (cc add : List Char) (c : Char) (hc : pySpace c = true) :
    (strip (cc ++ add ++ [c])).length ≤ cc.length + add.length := by
  have h1 : strip (cc ++ add ++ [c]) = strip (cc ++ add) := by
    rw [strip_append_space c hc (cc ++ add)]
  rw [h1]
  calc (strip (cc ++ add)).length ≤ (cc ++ add).length := length_strip_le _
    _ = cc.length + add.length := List.length_append _ _

theorem procPart_inv (maxLen : Nat) (st : ChunkSt) (part : List Char)
    (hpart : pairFree allPunct part = true) (h : chunkInv maxLen st) :
    chunkInv maxLen (procPart maxLen st part) := by
  obtain ⟨hchunks, hcc⟩ := h
  unfold procPart
  by_cases h1 : st.2.length + part.length ≤ maxLen
  · simp only [h1, if_true]
    refine ⟨hchunks, Or.inl ?_⟩
    exact le_trans (strip_snoc_space_le _ _ _ rfl) h1
  · have hccnew : (strip (part ++ [' '])).length ≤ maxLen ∨
        pairFree allPunct (strip (part ++ [' '])) = true := by
      refine Or.inr ?_
      rw [strip_append_space ' ' rfl part]
      exact pairFree_strip allPunct part hpart
    by_cases h2 : st.2.isEmpty
    · simp only [h1, if_false, h2, if_true]
      exact ⟨hchunks, hccnew⟩
    · simp only [h1, if_false, h2, if_true]
      refine ⟨?_, hccnew⟩
      intro c hc
      rcases List.mem_append.mp hc with hc | hc
      · exact hchunks c hc
      · rw [List.mem_singleton.mp hc]
        exact hcc

theorem procSentence_inv (maxLen : Nat) (st : ChunkSt) (s : List Char)
    (hs : pairFree sentencePunct s = true) (h : chunkInv maxLen st) :
    chunkInv maxLen (procSentence maxLen st s) := by
  unfold procSentence
  by_cases h0 : maxLen < s.length
  · simp only [h0, if_true]
    refine foldl_inv (fun part => pairFree allPunct part = true) ?_
      (fun st part hQ hI => procPart_inv maxLen st part hQ hI) st h
    intro part hpart
    have h1 : pairFree clausePunct part = true :=
      splitPunct_mem_pairFree clausePunct s part hpart
    obtain ⟨ss, tt, heq⟩ := splitPunct_mem_infix clausePunct s part hpart
    have h2 : pairFree sentencePunct part = true :=
      pairFree_of_infix sentencePunct ss part tt s heq hs
    exact pairFree_allPunct part h2 h1
  · obtain ⟨hchunks, hcc⟩ := h
    have hslen : s.length ≤ maxLen := Nat.le_of_not_lt h0
    by_cases h1 : st.2.length + s.length ≤ maxLen
    · simp only [h0, if_false, h1, if_true]
      refine ⟨hchunks, Or.inl ?_⟩
      exact le_trans (strip_snoc_space_le _ _ _ rfl) h1
    · simp only [h0, if_false, h1, if_true]
      refine ⟨?_, Or.inl ?_⟩
      · intro c hc
        rcases List.mem_append.mp hc with hc | hc
        · exact hchunks c hc
        · rw [List.mem_singleton.mp hc]
          exact hcc
      · have h2 : strip (s ++ [' ']) = strip s := strip_append_space ' ' rfl s
        rw [h2]
        exact le_trans (length_strip_le s) hslen

theorem procParagraph_inv (maxLen : Nat) (st : ChunkSt) (p : List Char)
    (h : chunkInv maxLen st) : chunkInv maxLen (procParagraph maxLen st p) := by
  unfold procParagraph
  by_cases h0 : maxLen < p.length
  · simp only [h0, if_true]
    refine foldl_inv (fun s => pairFree sentencePunct s = true) ?_
      (fun st s hQ hI => procSentence_inv maxLen st s hQ hI) st h
    intro s hsmem
    exact splitPunct_mem_pairFree sentencePunct p s hsmem
  · obtain ⟨hchunks, hcc⟩ := h
    have hplen : p.length ≤ maxLen := Nat.le_of_not_lt h0
    by_cases h1 : st.2.length + p.length + 1 ≤ maxLen
    · simp only [h0, if_false, h1, if_true]
      refine ⟨hchunks, Or.inl ?_⟩
      exact le_trans (strip_snoc_space_le _ _ _ rfl) (by omega)
    · simp only [h0, if_false, h1, if_true]
      refine ⟨?_, Or.inl ?_⟩
      · intro c hc
        rcases List.mem_append.mp hc with hc | hc
        · exact hchunks c hc
        · rw [List.mem_singleton.mp hc]
          exact hcc
      · have h2 : strip (p ++ ['\n']) = strip p := strip_append_space '\n' rfl p
        rw [h2]
        exact le_trans (length_strip_le p) hplen

theorem chunksRaw_ok (text : List Char) (maxLen : Nat) :
    ∀ c ∈ chunksRaw text maxLen,
      c.length ≤ maxLen ∨ pairFree allPunct c = true := by
  have hinv : chunkInv maxLen
      (((splitOnNewline text).filter (fun p => !(strip p).isEmpty)).foldl
        (procParagraph maxLen) ([], [])) := by
    refine foldl_inv (fun _ => True) (fun _ _ => trivial)
      (fun st u _ hI => procParagraph_inv maxLen st u hI) ([], []) ?_
    exact ⟨fun c hc => absurd hc (List.not_mem_nil c), Or.inl (Nat.zero_le _)⟩
  obtain ⟨hchunks, hcc⟩ := hinv
  intro c hc
  unfold chunksRaw at hc
  by_cases h : (strip (((splitOnNewline text).filter
      (fun p => !(strip p).isEmpty)).foldl (procParagraph maxLen) ([], [])).2).isEmpty
  · rw [if_pos h] at hc
    exact hchunks c hc
  · rw [if_neg h] at hc
    rcases List.mem_append.mp hc with hc | hc
    · exact hchunks c hc
    · rw [List.mem_singleton.mp hc]
      exact hcc

theorem mergeLoop_ok (minLen maxLen : Nat) :
    ∀ (l : List (List Char)) (c : List Char),
      (c.length ≤ maxLen + 1 ∨ pairFree allPunct c = true) →
      (∀ d ∈ l, d.length ≤ maxLen ∨ pairFree allPunct d = true) →
      ∀ d ∈ mergeLoop minLen maxLen c l,
        d.length ≤ maxLen + 1 ∨ pairFree allPunct d = true := by
  intro l
  induction l with
  | nil =>
      intro c hc _ d hd
      rw [List.mem_singleton.mp hd]
      exact hc
  | cons c2 rest ih =>
      intro c hc hl d hd
      unfold mergeLoop at hd
      by_cases h1 : c.length < minLen
      · by_cases h2 : c.length + c2.length ≤ maxLen
        · rw [if_pos h1, if_pos h2] at hd
          refine ih (c ++ ' ' :: c2) (Or.inl ?_)
            (fun e he => hl e (List.mem_cons_of_mem c2 he)) d hd
          simp only [List.length_append, List.length_cons]
          omega
        · rw [if_pos h1, if_neg h2] at hd
          rcases List.mem_cons.mp hd with rfl | hd
          · exact hc
          · refine ih c2 ?_ (fun e he => hl e (List.mem_cons_of_mem c2 he)) d hd
            rcases hl c2 (List.mem_cons_self c2 rest) with h | h
            · exact Or.inl (Nat.le_succ_of_le h)
            · exact Or.inr h
      · rw [if_neg h1] at hd
        rcases List.mem_cons.mp hd with rfl | hd
        · exact hc
        · refine ih c2 ?_ (fun e he => hl e (List.mem_cons_of_mem c2 he)) d hd
          rcases hl c2 (List.mem_cons_self c2 rest) with h | h
          · exact Or.inl (Nat.le_succ_of_le h)
          · exact Or.inr h

/-- The original claim C4 fails on the code: with maxLen = 4 the text
"a.\nb." chunks to the single chunk "a. b." of length 5 > 4, produced by
the merge post-pass (whose guard ignores the joining space), and that
chunk contains an internal sentence boundary, so it is not an atomic
clause. -/
theorem claim_C4_cex :
    ¬ (∀ c ∈ chunk_text "a.\nb.".toList 4,
        c.length ≤ 4 ∨ pairFree allPunct c = true) := by decide

/-- Claim C4 (amended): every chunk returned by chunk_text has length at
most maxLen + 1, or is an atomic clause (no character of .!?,;: inside it
followed by whitespace) whose own length exceeds the bound.  The extra
+1 over the claimed maxLen arises only in the merge post-pass, whose guard
compares the sum of the two chunk lengths to maxLen but joins them with an
additional separator space. -/
theorem claim_C4 (text : List Char) (maxLen : Nat) :
    ∀ c ∈ chunk_text text maxLen,
      c.length ≤ maxLen + 1 ∨ pairFree allPunct c = true := by
  intro c hc
  unfold chunk_text at hc
  have hraw := chunksRaw_ok text maxLen
  cases hr : chunksRaw text maxLen with
  | nil => rw [hr] at hc; exact absurd hc (List.not_mem_nil c)
  | cons c0 rest =>
      rw [hr] at hc
      unfold mergeChunks at hc
      refine mergeLoop_ok (Nat.max 50 (maxLen / 10)) maxLen rest c0 ?_ ?_ c hc
      · rcases hraw c0 (by rw [hr]; exact List.mem_cons_self c0 rest) with h | h
        · exact Or.inl (Nat.le_succ_of_le h)
        · exact Or.inr h
      · intro d hd
        exact hraw d (by rw [hr]; exact List.mem_cons_of_mem c0 hd)

/-- Witness for claim C4 at the concrete merge-overflow input. -/
theorem claim_C4_witness :
    "a. b.".toList ∈ chunk_text "a.\nb.".toList 4 ∧
    ("a. b.".toList.length ≤ 4 + 1 ∨ pairFree allPunct "a. b.".toList = true) :=
  ⟨by decide, claim_C4 "a.\nb.".toList 4 "a. b.".toList (by decide)⟩

/-! ## Minimum-length (merge post-pass) invariant -/

theorem mergeLoop_head_length (minLen maxLen : Nat) :
    ∀ (l : List (List Char)) (c h : List Char),
      (mergeLoop minLen maxLen c l).head? = some h → c.length ≤ h.length := by
  intro l
  induction l with
  | nil =>
      intro c h hh
      simp only [mergeLoop, List.head?_cons, Option.some.injEq] at hh
      rw [← hh]
  | cons c2 rest ih =>
      intro c h hh
      unfold mergeLoop at hh
      by_cases h1 : c.length < minLen
      · by_cases h2 : c.length + c2.length ≤ maxLen
        · rw [if_pos h1, if_pos h2] at hh
          have := ih (c ++ ' ' :: c2) h hh
          simp only [List.length_append, List.length_cons] at this
          omega
        · rw [if_pos h1, if_neg h2, List.head?_cons] at hh
          rw [← Option.some.injEq h c |>.mp hh.symm]
      · rw [if_neg h1, List.head?_cons] at hh
        rw [← Option.some.injEq h c |>.mp hh.symm]

theorem mergeLoop_chain (minLen maxLen : Nat) :
    ∀ (l : List (List Char)) (c : List Char),
      List.Chain' (fun c1 c2 => minLen ≤ c1.length ∨
        maxLen < c1.length + c2.length) (mergeLoop minLen maxLen c l) := by
  intro l
  induction l with
  | nil => intro c; simp [mergeLoop]
  | cons c2 rest ih =>
      intro c
      unfold mergeLoop
      by_cases h1 : c.length < minLen
      · by_cases h2 : c.length + c2.length ≤ maxLen
        · rw [if_pos h1, if_pos h2]
          exact ih (c ++ ' ' :: c2)
        · rw [if_pos h1, if_neg h2]
          refine List.chain'_cons'.mpr ⟨?_, ih c2⟩
          intro y hy
          refine Or.inr ?_
          have hlen := mergeLoop_head_length minLen maxLen rest c2 y hy
          omega
      · rw [if_neg h1]
        refine List.chain'_cons'.mpr ⟨?_, ih c2⟩
        intro y hy
        exact Or.inl (Nat.le_of_not_lt h1)

/-- The original claim C5 fails on the code: with maxLen = 10 (so
minLen = 50) the text "a, b\nbbbbbbbb" chunks to ["a, b", "bbbbbbbb"];
the non-final chunk "a, b" has length 4 < minLen, is not an oversized
single clause (its length is within maxLen and it contains an internal
clause boundary), yet it is not merged because the merged length would
exceed maxLen. -/
theorem claim_C5_cex :
    ¬ List.Chain' (fun c1 _ => Nat.max 50 (10 / 10) ≤ c1.length ∨
        (pairFree allPunct c1 = true ∧ 10 < c1.length))
      (chunk_text "a, b\nbbbbbbbb".toList 10) := by
  intro h
  rw [show chunk_text "a, b\nbbbbbbbb".toList 10 =
      ["a, b".toList, "bbbbbbbb".toList] from by decide] at h
  exact absurd (List.chain'_cons.mp h).1 (by decide)

/-- Claim C5 (amended): every chunk except the last of a chapter has
length at least minLen = max(50, maxLen/10), or merging it with its
immediate successor is impossible under the post-pass guard because the
two lengths already sum to more than maxLen.  The merge post-pass scans
left to right and merges a below-minLen chunk with its successor exactly
when the sum of their lengths stays within maxLen (the inserted separator
space is not counted by the guard). -/
theorem claim_C5 (text : List Char) (maxLen : Nat) :
    List.Chain' (fun c1 c2 => Nat.max 50 (maxLen / 10) ≤ c1.length ∨
      maxLen < c1.length + c2.length) (chunk_text text maxLen) := by
  unfold chunk_text
  cases hr : chunksRaw text maxLen with
  | nil => simp [mergeChunks]
  | cons c0 rest => exact mergeLoop_chain (Nat.max 50 (maxLen / 10)) maxLen rest c0

/-! ## Chapter markers (merge_chapter_wav_files) -/

theorem chapter_info_list_head_start (pos : ℚ) (chs : List ChapterAudio)
    (m : ChapterMarker) (h : (chapter_info_list pos chs).head? = some m) :
    m.startTime = pos := by
  induction chs generalizing pos with
  | nil => simp [chapter_info_list] at h
  | cons c rest ih =>
      by_cases hk : keepChapter c
      · simp [chapter_info_list, hk] at h
        simp [← h]
      · simp only [chapter_info_list, hk, if_false] at h
        exact ih _ h

theorem keepChapter_pos (c : ChapterAudio) (h : keepChapter c = true) :
    0 < c.duration := by
  simp [keepChapter] at h
  have h2 : (10 : ℚ)⁻¹ < c.duration := h.2
  linarith [h2]

theorem chapter_info_list_start_le (pos : ℚ) (chs : List ChapterAudio)
    (m : ChapterMarker) (h : m ∈ chapter_info_list pos chs) :
    pos ≤ m.startTime := by
  induction chs generalizing pos with
  | nil => simp [chapter_info_list] at h
  | cons c rest ih =>
      by_cases hk : keepChapter c
      · simp only [chapter_info_list, hk, if_true, List.mem_cons] at h
        rcases h with h | h
        · simp [h]
        · have := ih (pos + c.duration) h
          have hd := keepChapter_pos c hk
          linarith
      · simp only [chapter_info_list, hk, if_false] at h
        exact ih _ h

theorem chapter_info_list_chain (pos : ℚ) (chs : List ChapterAudio) :
    List.Chain' (fun m1 m2 => m1.endTime = m2.startTime)
      (chapter_info_list pos chs) := by
  induction chs generalizing pos with
  | nil => simp [chapter_info_list]
  | cons c rest ih =>
      by_cases hk : keepChapter c
      · simp only [chapter_info_list, hk, if_true]
        refine List.chain'_cons'.mpr ⟨?_, ih (pos + c.duration)⟩
        intro m hm
        exact (chapter_info_list_head_start _ _ _ hm).symm
      · simp only [chapter_info_list, hk, if_false]
        exact ih pos

theorem chapter_info_list_mono (pos : ℚ) (chs : List ChapterAudio) :
    List.Pairwise (· ≤ ·)
      ((chapter_info_list pos chs).map ChapterMarker.startTime) := by
  induction chs generalizing pos with
  | nil => simp [chapter_info_list]
  | cons c rest ih =>
      by_cases hk : keepChapter c
      · simp only [chapter_info_list, hk, if_true, List.map_cons]
        refine List.pairwise_cons.mpr ⟨?_, ih (pos + c.duration)⟩
        intro s hs
        simp only [List.mem_map] at hs
        obtain ⟨m, hm, rfl⟩ := hs
        have := chapter_info_list_start_le _ _ _ hm
        have hd := keepChapter_pos c hk
        linarith
      · simp only [chapter_info_list, hk, if_false]
        exact ih pos

theorem chapter_info_list_durations (pos : ℚ) (chs : List ChapterAudio) :
    (chapter_info_list pos chs).map (fun m => m.endTime - m.startTime) =
      (chs.filter keepChapter).map ChapterAudio.duration := by
  induction chs generalizing pos with
  | nil => simp [chapter_info_list]
  | cons c rest ih =>
      by_cases hk : keepChapter c
      · simp [chapter_info_list, hk, ih]
      · simp [chapter_info_list, hk, ih]

/-- Claim C2: the chapter markers built by merge_chapter_wav_files are
contiguous (each marker's end is the next marker's start) and
non-overlapping (start times are monotonically non-decreasing), each
marker's extent equals the measured duration of its chapter, chapters with
a missing file or non-positive/negligible duration contribute no marker
and no gap, and measured durations 10 s, 0 s, 5 s yield exactly the two
markers (0,10) and (10,15). -/
theorem claim_C2 (chapters : List ChapterAudio) :
    List.Chain' (fun m1 m2 => m1.endTime = m2.startTime)
      (merge_chapter_wav_files chapters) ∧
    List.Pairwise (· ≤ ·)
      ((merge_chapter_wav_files chapters).map ChapterMarker.startTime) ∧
    (merge_chapter_wav_files chapters).map (fun m => m.endTime - m.startTime) =
      (chapters.filter keepChapter).map ChapterAudio.duration ∧
    merge_chapter_wav_files
        [⟨true, 10⟩, ⟨true, 0⟩, ⟨true, 5⟩] =
      [⟨0, 10⟩, ⟨10, 15⟩] := by
  refine ⟨chapter_info_list_chain 0 chapters, chapter_info_list_mono 0 chapters,
    chapter_info_list_durations 0 chapters, ?_⟩
  norm_num [merge_chapter_wav_files, chapter_info_list, keepChapter]

/-! ## Per-chapter skip-and-continue (process_epub_chapters) -/

/-- Claim C7: with no stop requested, the chapter loop completes, the files
handed to concatenation are exactly the successfully synthesized chapters
(failed ones are excluded and hence absent from the markers), every failure
is logged with the chapter's title, and every selected chapter is
processed (a failure never aborts the loop). -/
theorem claim_C7 (synthOk : ChapterC → Bool) (checkStop : Nat → Bool) (i0 : Nat)
    (chs : List ChapterC) (hstop : ∀ i, checkStop i = false) :
    (process_epub_chapters synthOk checkStop i0 chs).2.2 = true ∧
    (process_epub_chapters synthOk checkStop i0 chs).1 = chs.filter synthOk ∧
    (∀ ch ∈ chs, synthOk ch = false →
      ∃ i, LogEvent.errorSkip i ch.title ∈ (process_epub_chapters synthOk checkStop i0 chs).2.1) ∧
    (∀ ch ∈ chs,
      ∃ i, LogEvent.processing i ch.title ∈ (process_epub_chapters synthOk checkStop i0 chs).2.1) := by
  induction chs generalizing i0 with
  | nil => simp [process_epub_chapters]
  | cons ch rest ih =>
      obtain ⟨ihDone, ihFiles, ihErr, ihProc⟩ := ih (i0 + 1)
      by_cases hok : synthOk ch
      · refine ⟨?_, ?_, ?_, ?_⟩
        · simp [process_epub_chapters, hstop i0, hok, ihDone]
        · simp [process_epub_chapters, hstop i0, hok, ihFiles]
        · intro c hc hfail
          rcases List.mem_cons.mp hc with rfl | hc
          · rw [hok] at hfail; exact absurd hfail (by simp)
          · obtain ⟨i, hi⟩ := ihErr c hc hfail
            exact ⟨i, by simp [process_epub_chapters, hstop i0, hok, hi]⟩
        · intro c hc
          rcases List.mem_cons.mp hc with rfl | hc
          · exact ⟨i0, by simp [process_epub_chapters, hstop i0, hok]⟩
          · obtain ⟨i, hi⟩ := ihProc c hc
            exact ⟨i, by simp [process_epub_chapters, hstop i0, hok, hi]⟩
      · refine ⟨?_, ?_, ?_, ?_⟩
        · simp [process_epub_chapters, hstop i0, hok, ihDone]
        · simp [process_epub_chapters, hstop i0, hok, ihFiles]
        · intro c hc hfail
          rcases List.mem_cons.mp hc with rfl | hc
          · exact ⟨i0, by simp [process_epub_chapters, hstop i0, hok]⟩
          · obtain ⟨i, hi⟩ := ihErr c hc hfail
            exact ⟨i, by simp [process_epub_chapters, hstop i0, hok, hi]⟩
        · intro c hc
          rcases List.mem_cons.mp hc with rfl | hc
          · exact ⟨i0, by simp [process_epub_chapters, hstop i0, hok]⟩
          · obtain ⟨i, hi⟩ := ihProc c hc
            exact ⟨i, by simp [process_epub_chapters, hstop i0, hok, hi]⟩

/-- Witness for claim C7 at a concrete two-chapter run where the first
chapter's synthesis fails. -/
theorem claim_C7_witness :
    (process_epub_chapters (fun ch => decide (ch.title ≠ ['a'])) (fun _ => false) 0
        [⟨['a'], ['x']⟩, ⟨['b'], ['y']⟩]).2.2 = true ∧
    (process_epub_chapters (fun ch => decide (ch.title ≠ ['a'])) (fun _ => false) 0
        [⟨['a'], ['x']⟩, ⟨['b'], ['y']⟩]).1 =
      [⟨['a'], ['x']⟩, ⟨['b'], ['y']⟩].filter (fun ch => decide (ch.title ≠ ['a'])) ∧
    (∀ ch ∈ [(⟨['a'], ['x']⟩ : ChapterC), ⟨['b'], ['y']⟩],
      (fun ch => decide (ch.title ≠ ['a'])) ch = false →
      ∃ i, LogEvent.errorSkip i ch.title ∈
        (process_epub_chapters (fun ch => decide (ch.title ≠ ['a'])) (fun _ => false) 0
          [⟨['a'], ['x']⟩, ⟨['b'], ['y']⟩]).2.1) ∧
    (∀ ch ∈ [(⟨['a'], ['x']⟩ : ChapterC), ⟨['b'], ['y']⟩],
      ∃ i, LogEvent.processing i ch.title ∈
        (process_epub_chapters (fun ch => decide (ch.title ≠ ['a'])) (fun _ => false) 0
          [⟨['a'], ['x']⟩, ⟨['b'], ['y']⟩]).2.1) :=
  claim_C7 (fun ch => decide (ch.title ≠ ['a'])) (fun _ => false) 0
    [⟨['a'], ['x']⟩, ⟨['b'], ['y']⟩] (fun _ => rfl)

/-! ## Overwrite handshake cancellation (handle_overwrite_request) -/

theorem handle_overwrite_request_stop_aux (env : Nat → WorkerState) :
    ∀ (k fuel t : Nat),
      (∀ u, u < k → (env (t + u)).overwriteResponse = none ∧
        (env (t + u)).isRunning = true) →
      (((env (t + k)).overwriteResponse = none ∧ (env (t + k)).isRunning = false) ∨
        (env (t + k)).overwriteResponse = some false) →
      k < fuel →
      handle_overwrite_request env fuel t = some false := by
  intro k
  induction k with
  | zero =>
      intro fuel t _ hstop hfuel
      obtain ⟨f, rfl⟩ := Nat.exists_eq_succ_of_ne_zero (Nat.pos_iff_ne_zero.mp hfuel)
      simp only [Nat.add_zero] at hstop
      rcases hstop with ⟨hre, hru⟩ | hre
      · simp [handle_overwrite_request, hre, hru]
      · simp [handle_overwrite_request, hre]
  | succ k ih =>
      intro fuel t hblock hstop hfuel
      obtain ⟨f, rfl⟩ := Nat.exists_eq_succ_of_ne_zero
        (Nat.pos_iff_ne_zero.mp (Nat.lt_of_le_of_lt (Nat.zero_le _) hfuel))
      have h0 := hblock 0 (Nat.succ_pos k)
      simp only [Nat.add_zero] at h0
      have : handle_overwrite_request env (f + 1) t =
          handle_overwrite_request env f (t + 1) := by
        simp [handle_overwrite_request, h0.1, h0.2]
      rw [this]
      refine ih f (t + 1) ?_ ?_ (Nat.lt_of_succ_lt_succ hfuel)
      · intro u hu
        have := hblock (u + 1) (Nat.succ_lt_succ hu)
        simpa [Nat.add_assoc, Nat.add_comm 1 u] using this
      · have h : t + 1 + k = t + (k + 1) := by omega
        rw [h]
        exact hstop

/-- Claim C8: if the worker has been blocked polling for an overwrite
answer (response unset, running) and a stop request arrives at poll k
(stop clears _is_running and writes a False response when none is set),
then the polling loop of handle_overwrite_request unblocks and returns the
negative answer False instead of hanging or answering yes. -/
theorem claim_C8 (env : Nat → WorkerState) (k fuel : Nat)
    (hblock : ∀ u, u < k → (env u).overwriteResponse = none ∧
      (env u).isRunning = true)
    (hstop : ((env k).overwriteResponse = none ∧ (env k).isRunning = false) ∨
      (env k).overwriteResponse = some false)
    (hfuel : k < fuel) :
    handle_overwrite_request env fuel 0 = some false := by
  refine handle_overwrite_request_stop_aux env k fuel 0 ?_ ?_ hfuel
  · intro u hu
    simpa using hblock u hu
  · simpa using hstop

/-- Witness for claim C8: a worker blocked for two polls, then stopped. -/
theorem claim_C8_witness :
    (∀ u, u < 2 →
      ((fun t => if t < 2 then WorkerState.mk none true
        else WorkerState.mk none false) u).overwriteResponse = none ∧
      ((fun t => if t < 2 then WorkerState.mk none true
        else WorkerState.mk none false) u).isRunning = true) ∧
    handle_overwrite_request
      (fun t => if t < 2 then WorkerState.mk none true
        else WorkerState.mk none false) 3 0 = some false := by
  refine ⟨by decide, ?_⟩
  exact claim_C8 (fun t => if t < 2 then WorkerState.mk none true
      else WorkerState.mk none false) 2 3
    (by decide) (by decide) (by decide)

/-! ## Chunker determinism -/

/-- Claim C9: chunk_text is deterministic, identical text and maxLen inputs
produce identical chunk sequences. -/
theorem claim_C9 (t1 t2 : List Char) (m1 m2 : Nat) (h1 : t1 = t2)
    (h2 : m1 = m2) : chunk_text t1 m1 = chunk_text t2 m2 := by
  rw [h1, h2]

/-- Witness for claim C9 at a concrete input. -/
theorem claim_C9_witness :
    chunk_text "One. Two.".toList 5 = chunk_text "One. Two.".toList 5 :=
  claim_C9 "One. Two.".toList "One. Two.".toList 5 5 rfl rfl

/-! ## Failed-chapter artifact cleanup (generate_speech_for_chapter) -/

/-- The original claim C10 fails on the code: the cleanup wraps os.remove
in try/except OSError: pass, so when the removal fails the partially
written file remains on disk even though the function returns False.
Concretely: a failure after the file was written, with os.remove failing,
returns False yet leaves the output file present. -/
theorem claim_C10_cex :
    (generate_speech_for_chapter SynthOutcome.failAfterWrite false true).1 = false ∧
    (generate_speech_for_chapter SynthOutcome.failAfterWrite false true).2 = true := by
  decide

/-- Claim C10 (amended): when synthesis of a chapter fails at any stage,
generate_speech_for_chapter returns False and attempts to remove the
output file; when os.remove succeeds the file is absent afterwards, and in
general a file remains on disk after the failure exactly when the removal
failed with a swallowed OSError and there was a file to remove (one
already written by this attempt, or pre-existing). -/
theorem claim_C10 (outcome : SynthOutcome) (removeOk fileBefore : Bool)
    (hfail : outcome ≠ SynthOutcome.ok) :
    (generate_speech_for_chapter outcome removeOk fileBefore).1 = false ∧
    (removeOk = true →
      (generate_speech_for_chapter outcome removeOk fileBefore).2 = false) ∧
    (generate_speech_for_chapter outcome removeOk fileBefore).2 =
      (!removeOk && (fileBefore ||
        decide (outcome = SynthOutcome.failAfterWrite))) := by
  cases outcome with
  | ok => exact absurd rfl hfail
  | failBeforeWrite =>
      cases removeOk <;> cases fileBefore <;>
        simp [generate_speech_for_chapter, cleanupOnFailure]
  | failAfterWrite =>
      cases removeOk <;> cases fileBefore <;>
        simp [generate_speech_for_chapter, cleanupOnFailure]

/-- Witness for the amended claim C10: a failure after the file was
written, with os.remove succeeding, reports failure and leaves no
artifact. -/
theorem claim_C10_witness :
    (generate_speech_for_chapter SynthOutcome.failAfterWrite true true).1 = false ∧
    (true = true →
      (generate_speech_for_chapter SynthOutcome.failAfterWrite true true).2 = false) ∧
    (generate_speech_for_chapter SynthOutcome.failAfterWrite true true).2 =
      (!true && (true || decide (SynthOutcome.failAfterWrite =
        SynthOutcome.failAfterWrite))) :=
  claim_C10 SynthOutcome.failAfterWrite true true (by decide)


/-! ## Association-list and first-occurrence lemmas -/

theorem alookup_nil {α β : Type} [DecidableEq α] (a : α) :
    alookup ([] : List (α × β)) a = none := rfl

theorem alookup_cons {α β : Type} [DecidableEq α] (k : α) (v : β)
    (d : List (α × β)) (a : α) :
    alookup ((k, v) :: d) a = if k = a then some v else alookup d a := rfl

theorem dedupFirstAux_cons {α : Type} [DecidableEq α] (seen : List α) (x : α)
    (xs : List α) :
    dedupFirstAux seen (x :: xs) =
      if x ∈ seen then dedupFirstAux seen xs
      else x :: dedupFirstAux (x :: seen) xs := rfl

theorem alookup_isSome_of_mem {α β : Type} [DecidableEq α] :
    ∀ (d : List (α × β)) (a : α), a ∈ d.map Prod.fst →
      ∃ v, alookup d a = some v := by
  intro d
  induction d with
  | nil => intro a ha; simp at ha
  | cons p d' ih =>
      intro a ha
      obtain ⟨k, w⟩ := p
      by_cases h : k = a
      · exact ⟨w, by rw [alookup_cons, if_pos h]⟩
      · have ha' : a ∈ d'.map Prod.fst := by
          simp only [List.map_cons, List.mem_cons] at ha
          rcases ha with ha | ha
          · exact absurd ha.symm h
          · exact ha
        obtain ⟨v, hv⟩ := ih a ha'
        exact ⟨v, by rw [alookup_cons, if_neg h, hv]⟩

theorem alookup_mem {α β : Type} [DecidableEq α] :
    ∀ (d : List (α × β)) (a : α) (v : β), alookup d a = some v → (a, v) ∈ d := by
  intro d
  induction d with
  | nil => intro a v h; simp [alookup_nil] at h
  | cons p d' ih =>
      intro a v h
      obtain ⟨k, w⟩ := p
      by_cases hk : k = a
      · subst hk
        rw [alookup_cons, if_pos rfl, Option.some.injEq] at h
        rw [← h]
        exact List.mem_cons_self (k, w) d'
      · rw [alookup_cons, if_neg hk] at h
        exact List.mem_cons_of_mem _ (ih a v h)

theorem alookup_of_mem_nodup {α β : Type} [DecidableEq α] :
    ∀ (d : List (α × β)) (a : α) (v : β),
      (d.map Prod.fst).Nodup → (a, v) ∈ d → alookup d a = some v := by
  intro d
  induction d with
  | nil => intro a v _ h; simp at h
  | cons p d' ih =>
      intro a v hnd hmem
      obtain ⟨k, w⟩ := p
      simp only [List.map_cons, List.nodup_cons] at hnd
      rcases List.mem_cons.mp hmem with heq | hmem'
      · rw [Prod.mk.injEq] at heq
        rw [alookup_cons, if_pos heq.1.symm, heq.2]
      · have ha : a ∈ d'.map Prod.fst :=
          List.mem_map_of_mem Prod.fst hmem'
        have hk : k ≠ a := by
          intro hka
          exact hnd.1 (hka ▸ ha)
        rw [alookup_cons, if_neg hk]
        exact ih a v hnd.2 hmem'

theorem dictInsert_keys {α : Type} [DecidableEq α] (d : List (α × CandData))
    (k : α) (v : CandData) :
    (dictInsert d k v).map Prod.fst =
      if k ∈ d.map Prod.fst then d.map Prod.fst else d.map Prod.fst ++ [k] := by
  unfold dictInsert
  by_cases h : k ∈ d.map Prod.fst
  · rw [if_pos h, if_pos h, List.map_map]
    refine List.map_congr_left ?_
    intro p _
    by_cases hp : p.1 = k
    · simp [hp]
    · simp [hp]
  · rw [if_neg h, if_neg h, List.map_append]
    rfl

theorem alookup_update {α : Type} [DecidableEq α] (v : CandData) :
    ∀ (d : List (α × CandData)) (k a : α), k ∈ d.map Prod.fst →
      alookup (d.map (fun p => if p.1 = k then (k, v) else p)) a =
        if a = k then some v else alookup d a := by
  intro d
  induction d with
  | nil => intro k a h; simp at h
  | cons p d' ih =>
      intro k a hk
      obtain ⟨k', w⟩ := p
      rw [List.map_cons]
      by_cases h1 : k' = k
      · have hhead : (if (k', w).1 = k then (k, v) else (k', w)) = (k, v) := by
          simp [h1]
        rw [hhead]
        by_cases h2 : a = k
        · rw [alookup_cons, if_pos h2.symm, if_pos h2]
        · rw [alookup_cons, if_neg (fun h => h2 h.symm), if_neg h2]
          subst h1
          rw [alookup_cons, if_neg (fun h => h2 h.symm)]
          by_cases h3 : k' ∈ d'.map Prod.fst
          · rw [ih k' a h3, if_neg h2]
          · have hid : d'.map (fun p => if p.1 = k' then (k', v) else p) = d' := by
              have hcong := List.map_congr_left (l := d')
                (f := fun p => if p.1 = k' then (k', v) else p) (g := id) ?_
              · rw [hcong, List.map_id]
              · intro p hp
                have hne : p.1 ≠ k' := fun hpk =>
                  h3 (hpk ▸ List.mem_map_of_mem Prod.fst hp)
                simp [hne]
            rw [hid]
      · have hhead : (if (k', w).1 = k then (k, v) else (k', w)) = (k', w) := by
          simp [h1]
        rw [hhead]
        have hk' : k ∈ d'.map Prod.fst := by
          simp only [List.map_cons, List.mem_cons] at hk
          rcases hk with hk | hk
          · exact absurd hk.symm h1
          · exact hk
        by_cases h2 : k' = a
        · rw [alookup_cons, if_pos h2, alookup_cons, if_pos h2, if_neg ?_]
          intro hak
          exact h1 (h2.trans hak)
        · rw [alookup_cons, if_neg h2, alookup_cons, if_neg h2, ih k a hk']

theorem alookup_append_singleton {α : Type} [DecidableEq α] (v : CandData) :
    ∀ (d : List (α × CandData)) (k a : α), ¬ k ∈ d.map Prod.fst →
      alookup (d ++ [(k, v)]) a = if a = k then some v else alookup d a := by
  intro d
  induction d with
  | nil =>
      intro k a _
      by_cases h : a = k
      · rw [List.nil_append, alookup_cons, if_pos h.symm, if_pos h]
      · rw [List.nil_append, alookup_cons, if_neg (fun hh => h hh.symm), if_neg h]
  | cons p d' ih =>
      intro k a hk
      obtain ⟨k', w⟩ := p
      have hk1 : k' ≠ k := by
        intro h
        exact hk (by simp [h])
      have hk2 : ¬ k ∈ d'.map Prod.fst := by
        intro h
        exact hk (by simp [h])
      by_cases h2 : k' = a
      · rw [List.cons_append, alookup_cons, if_pos h2, alookup_cons, if_pos h2,
          if_neg ?_]
        intro hak
        exact hk1 (h2.trans hak)
      · rw [List.cons_append, alookup_cons, if_neg h2, alookup_cons, if_neg h2,
          ih k a hk2]

theorem dictInsert_alookup {α : Type} [DecidableEq α] (d : List (α × CandData))
    (k a : α) (v : CandData) :
    alookup (dictInsert d k v) a = if a = k then some v else alookup d a := by
  unfold dictInsert
  by_cases h : k ∈ d.map Prod.fst
  · rw [if_pos h, alookup_update v d k a h]
  · rw [if_neg h, alookup_append_singleton v d k a h]

theorem mem_dedupFirstAux {α : Type} [DecidableEq α] (a : α) :
    ∀ (l seen : List α), a ∈ dedupFirstAux seen l ↔ (a ∈ l ∧ ¬ a ∈ seen) := by
  intro l
  induction l with
  | nil => intro seen; simp [dedupFirstAux]
  | cons x l' ih =>
      intro seen
      by_cases hx : x ∈ seen
      · rw [dedupFirstAux_cons, if_pos hx, ih seen]
        constructor
        · rintro ⟨h1, h2⟩
          exact ⟨List.mem_cons_of_mem x h1, h2⟩
        · rintro ⟨h1, h2⟩
          rcases List.mem_cons.mp h1 with rfl | h1
          · exact absurd hx h2
          · exact ⟨h1, h2⟩
      · rw [dedupFirstAux_cons, if_neg hx]
        constructor
        · intro h
          rcases List.mem_cons.mp h with rfl | h
          · exact ⟨List.mem_cons_self a l', hx⟩
          · obtain ⟨h1, h2⟩ := (ih (x :: seen)).mp h
            refine ⟨List.mem_cons_of_mem x h1, ?_⟩
            intro hs
            exact h2 (List.mem_cons_of_mem x hs)
        · rintro ⟨h1, h2⟩
          rcases List.mem_cons.mp h1 with rfl | h1
          · exact List.mem_cons_self a _
          · by_cases hax : a = x
            · subst hax; exact List.mem_cons_self a _
            · refine List.mem_cons_of_mem x ((ih (x :: seen)).mpr ⟨h1, ?_⟩)
              intro hs
              rcases List.mem_cons.mp hs with h | h
              · exact hax h
              · exact h2 h

theorem nodup_dedupFirstAux {α : Type} [DecidableEq α] :
    ∀ (l seen : List α), (dedupFirstAux seen l).Nodup := by
  intro l
  induction l with
  | nil => intro seen; simp [dedupFirstAux]
  | cons x l' ih =>
      intro seen
      by_cases hx : x ∈ seen
      · rw [dedupFirstAux_cons, if_pos hx]; exact ih seen
      · rw [dedupFirstAux_cons, if_neg hx]
        rw [List.nodup_cons]
        refine ⟨?_, ih (x :: seen)⟩
        intro hmem
        exact ((mem_dedupFirstAux x l' (x :: seen)).mp hmem).2
          (List.mem_cons_self x seen)

theorem dedupFirstAux_append_singleton {α : Type} [DecidableEq α] (k : α) :
    ∀ (l seen : List α),
      dedupFirstAux seen (l ++ [k]) =
        dedupFirstAux seen l ++
          (if k ∈ seen ∨ k ∈ l then [] else [k]) := by
  intro l
  induction l with
  | nil =>
      intro seen
      by_cases h : k ∈ seen
      · simp [dedupFirstAux, h]
      · simp [dedupFirstAux, h]
  | cons x l' ih =>
      intro seen
      by_cases hx : x ∈ seen
      · rw [List.cons_append, dedupFirstAux_cons, if_pos hx, ih seen,
          dedupFirstAux_cons, if_pos hx]
        congr 1
        by_cases hk : k ∈ seen ∨ k ∈ l'
        · rw [if_pos hk, if_pos ?_]
          rcases hk with hk | hk
          · exact Or.inl hk
          · exact Or.inr (List.mem_cons_of_mem x hk)
        · rw [if_neg hk, if_neg ?_]
          intro hcon
          rcases hcon with hcon | hcon
          · exact hk (Or.inl hcon)
          · rcases List.mem_cons.mp hcon with rfl | hcon
            · exact hk (Or.inl hx)
            · exact hk (Or.inr hcon)
      · rw [List.cons_append, dedupFirstAux_cons, if_neg hx, ih (x :: seen),
          dedupFirstAux_cons, if_neg hx, List.cons_append]
        congr 2
        by_cases hk : k ∈ x :: seen ∨ k ∈ l'
        · rw [if_pos hk, if_pos ?_]
          rcases hk with hk | hk
          · rcases List.mem_cons.mp hk with rfl | hk
            · exact Or.inr (List.mem_cons_self k l')
            · exact Or.inl hk
          · exact Or.inr (List.mem_cons_of_mem x hk)
        · rw [if_neg hk, if_neg ?_]
          intro hcon
          rcases hcon with hcon | hcon
          · exact hk (Or.inl (List.mem_cons_of_mem x hcon))
          · rcases List.mem_cons.mp hcon with rfl | hcon
            · exact hk (Or.inl (List.mem_cons_self k seen))
            · exact hk (Or.inr hcon)

/-! ## Duplicate-locator resolution in extract_chapters_from_epub -/

theorem extracted_snoc {α : Type} [DecidableEq α] (items : List (EpubItem α))
    (it : EpubItem α) :
    extracted_chapters_data (items ++ [it]) =
      match it.href with
      | none => extracted_chapters_data items
      | some h =>
          if it.text.length < 100 then extracted_chapters_data items
          else dictInsert (extracted_chapters_data items) h
            ⟨it.title, it.text⟩ := by
  unfold extracted_chapters_data
  rw [List.foldl_append]
  rfl

theorem qualifyingHrefs_snoc {α : Type} [DecidableEq α] (items : List (EpubItem α))
    (it : EpubItem α) :
    qualifyingHrefs (items ++ [it]) =
      qualifyingHrefs items ++
        (match it.href with
         | none => []
         | some h => if it.text.length < 100 then [] else [h]) := by
  unfold qualifyingHrefs
  rw [List.filterMap_append]
  congr 1
  cases hh : it.href with
  | none => by_cases hl : it.text.length < 100 <;> simp [List.filterMap, hl, hh]
  | some h => by_cases hl : it.text.length < 100 <;> simp [List.filterMap, hl, hh]

theorem qualifyingFor_snoc {α : Type} [DecidableEq α] (items : List (EpubItem α))
    (it : EpubItem α) (k : α) :
    qualifyingFor (items ++ [it]) k =
      qualifyingFor items k ++
        (if it.href = some k ∧ ¬ it.text.length < 100 then [it] else []) := by
  unfold qualifyingFor
  rw [List.filter_append]
  congr 1
  by_cases h1 : it.href = some k
  · by_cases h2 : it.text.length < 100
    · simp [List.filter, h1, h2]
    · simp [List.filter, h1, h2]
  · by_cases h2 : it.text.length < 100
    · simp [List.filter, h1, h2]
    · simp [List.filter, h1, h2]

theorem extracted_keys {α : Type} [DecidableEq α] (items : List (EpubItem α)) :
    (extracted_chapters_data items).map Prod.fst =
      dedupFirst (qualifyingHrefs items) := by
  induction items using List.reverseRecOn with
  | nil => rfl
  | append_singleton items it ih =>
      rw [extracted_snoc, qualifyingHrefs_snoc]
      cases hh : it.href with
      | none => simpa using ih
      | some h =>
          by_cases hl : it.text.length < 100
          · simpa [hl] using ih
          · simp only [if_neg hl]
            rw [dictInsert_keys, ih]
            unfold dedupFirst
            rw [dedupFirstAux_append_singleton]
            have hmem : h ∈ dedupFirstAux [] (qualifyingHrefs items) ↔
                h ∈ qualifyingHrefs items := by
              rw [mem_dedupFirstAux]
              simp
            by_cases hq : h ∈ qualifyingHrefs items
            · rw [if_pos (hmem.mpr hq), if_pos (by simp [hq]), List.append_nil]
            · rw [if_neg (fun hc => hq (hmem.mp hc)), if_neg (by simp [hq])]

theorem extracted_snoc_none {α : Type} [DecidableEq α] (items : List (EpubItem α))
    (it : EpubItem α) (hh : it.href = none) :
    extracted_chapters_data (items ++ [it]) = extracted_chapters_data items := by
  rw [extracted_snoc, hh]

theorem extracted_snoc_some_short {α : Type} [DecidableEq α]
    (items : List (EpubItem α)) (it : EpubItem α) (h : α)
    (hh : it.href = some h) (hl : it.text.length < 100) :
    extracted_chapters_data (items ++ [it]) = extracted_chapters_data items := by
  rw [extracted_snoc, hh]
  exact if_pos hl

theorem extracted_snoc_some_qual {α : Type} [DecidableEq α]
    (items : List (EpubItem α)) (it : EpubItem α) (h : α)
    (hh : it.href = some h) (hl : ¬ it.text.length < 100) :
    extracted_chapters_data (items ++ [it]) =
      dictInsert (extracted_chapters_data items) h ⟨it.title, it.text⟩ := by
  rw [extracted_snoc, hh]
  exact if_neg hl

theorem extracted_lookup {α : Type} [DecidableEq α] (items : List (EpubItem α))
    (k : α) :
    alookup (extracted_chapters_data items) k =
      ((qualifyingFor items k).getLast?).map
        (fun it => CandData.mk it.title it.text) := by
  induction items using List.reverseRecOn with
  | nil => rfl
  | append_singleton items it ih =>
      rw [qualifyingFor_snoc]
      cases hh : it.href with
      | none =>
          rw [extracted_snoc_none items it hh, if_neg (by simp), List.append_nil]
          exact ih
      | some h =>
          by_cases hl : it.text.length < 100
          · rw [extracted_snoc_some_short items it h hh hl,
              if_neg (fun hc => hc.2 hl), List.append_nil]
            exact ih
          · by_cases hk : h = k
            · subst hk
              rw [extracted_snoc_some_qual items it h hh hl,
                if_pos ⟨rfl, hl⟩, List.getLast?_concat, dictInsert_alookup,
                if_pos rfl]
              rfl
            · rw [extracted_snoc_some_qual items it h hh hl,
                if_neg (fun hc => hk (Option.some.inj hc.1)), List.append_nil,
                dictInsert_alookup, if_neg (fun hc => hk hc.symm)]
              exact ih

/-- The original claim C6 fails on the code: when two qualifying content
documents share the same locator, the dict assignment
extracted_chapters_data[href] = data keeps the position of the first
occurrence but overwrites its title and content, so the surviving
candidate carries the data of the LAST occurrence, not the first. -/
theorem claim_C6_cex :
    alookup (extracted_chapters_data
        [EpubItem.mk (some "A") ['t', '1'] (List.replicate 100 'a'),
         EpubItem.mk (some "A") ['t', '2'] (List.replicate 100 'b')]) "A" ≠
      some (CandData.mk ['t', '1'] (List.replicate 100 'a')) ∧
    alookup (extracted_chapters_data
        [EpubItem.mk (some "A") ['t', '1'] (List.replicate 100 'a'),
         EpubItem.mk (some "A") ['t', '2'] (List.replicate 100 'b')]) "A" =
      some (CandData.mk ['t', '2'] (List.replicate 100 'b')) := by
  constructor
  · decide
  · decide

/-- Claim C6 (amended): for every parse, each locator keeps exactly one
ChapterCandidate (the key list of extracted_chapters_data has no
duplicates); the candidate sits at the position of the locator's first
qualifying occurrence in extraction order, but carries the title and
content of the locator's last qualifying occurrence (dict assignment
overwrites the stored value while keeping the key's original position). -/
theorem claim_C6 {α : Type} [DecidableEq α] (items : List (EpubItem α)) :
    ((extracted_chapters_data items).map Prod.fst).Nodup ∧
    (extracted_chapters_data items).map Prod.fst =
      dedupFirst (qualifyingHrefs items) ∧
    (∀ k, alookup (extracted_chapters_data items) k =
      ((qualifyingFor items k).getLast?).map
        (fun it => CandData.mk it.title it.text)) := by
  refine ⟨?_, extracted_keys items, fun k => extracted_lookup items k⟩
  rw [extracted_keys items]
  exact nodup_dedupFirstAux (qualifyingHrefs items) []

/-- Witness for claim C6 at the concrete duplicate-locator input. -/
theorem claim_C6_witness :
    ((extracted_chapters_data
        [EpubItem.mk (some "A") ['t', '1'] (List.replicate 100 'a'),
         EpubItem.mk (some "A") ['t', '2'] (List.replicate 100 'b')]).map
      Prod.fst).Nodup ∧
    (extracted_chapters_data
        [EpubItem.mk (some "A") ['t', '1'] (List.replicate 100 'a'),
         EpubItem.mk (some "A") ['t', '2'] (List.replicate 100 'b')]).map
      Prod.fst =
      dedupFirst (qualifyingHrefs
        [EpubItem.mk (some "A") ['t', '1'] (List.replicate 100 'a'),
         EpubItem.mk (some "A") ['t', '2'] (List.replicate 100 'b')]) ∧
    (∀ k, alookup (extracted_chapters_data
        [EpubItem.mk (some "A") ['t', '1'] (List.replicate 100 'a'),
         EpubItem.mk (some "A") ['t', '2'] (List.replicate 100 'b')]) k =
      ((qualifyingFor
        [EpubItem.mk (some "A") ['t', '1'] (List.replicate 100 'a'),
         EpubItem.mk (some "A") ['t', '2'] (List.replicate 100 'b')] k).getLast?).map
        (fun it => CandData.mk it.title it.text)) :=
  claim_C6
    [EpubItem.mk (some "A") ['t', '1'] (List.replicate 100 'a'),
     EpubItem.mk (some "A") ['t', '2'] (List.replicate 100 'b')]

/-! ## Reading-order reconstruction -/

theorem placeLoop_nil {α β : Type} [DecidableEq α] (cands : List (α × β))
    (processed : List α) : placeLoop cands [] processed = [] := rfl

theorem placeLoop_cons_mem {α β : Type} [DecidableEq α] (cands : List (α × β))
    (h : α) (hs processed : List α) (hm : h ∈ processed) :
    placeLoop cands (h :: hs) processed = placeLoop cands hs processed := by
  simp only [placeLoop]
  rw [if_pos hm]

theorem placeLoop_cons_some {α β : Type} [DecidableEq α] (cands : List (α × β))
    (h : α) (hs processed : List α) (d : β) (hm : ¬ h ∈ processed)
    (hl : alookup cands h = some d) :
    placeLoop cands (h :: hs) processed =
      (h, d) :: placeLoop cands hs (h :: processed) := by
  simp only [placeLoop]
  rw [if_neg hm, hl]

theorem placeLoop_cons_none {α β : Type} [DecidableEq α] (cands : List (α × β))
    (h : α) (hs processed : List α) (hm : ¬ h ∈ processed)
    (hl : alookup cands h = none) :
    placeLoop cands (h :: hs) processed = placeLoop cands hs processed := by
  simp only [placeLoop]
  rw [if_neg hm, hl]

theorem placeLoop_keys {α β : Type} [DecidableEq α] (cands : List (α × β)) :
    ∀ (hs processed : List α),
      (∀ h ∈ hs, h ∈ cands.map Prod.fst) →
      (placeLoop cands hs processed).map Prod.fst = dedupFirstAux processed hs := by
  intro hs
  induction hs with
  | nil => intro processed _; rfl
  | cons h hs' ih =>
      intro processed hsub
      by_cases hm : h ∈ processed
      · rw [placeLoop_cons_mem cands h hs' processed hm,
          dedupFirstAux_cons, if_pos hm]
        exact ih processed (fun x hx => hsub x (List.mem_cons_of_mem h hx))
      · obtain ⟨d, hd⟩ := alookup_isSome_of_mem cands h
          (hsub h (List.mem_cons_self h hs'))
        rw [placeLoop_cons_some cands h hs' processed d hm hd,
          dedupFirstAux_cons, if_neg hm, List.map_cons]
        rw [ih (h :: processed) (fun x hx => hsub x (List.mem_cons_of_mem h hx))]

theorem placeLoop_mem_alookup {α β : Type} [DecidableEq α] (cands : List (α × β)) :
    ∀ (hs processed : List α) (k : α) (v : β),
      (k, v) ∈ placeLoop cands hs processed → alookup cands k = some v := by
  intro hs
  induction hs with
  | nil => intro processed k v hmem; simp [placeLoop_nil] at hmem
  | cons h hs' ih =>
      intro processed k v hmem
      by_cases hm : h ∈ processed
      · rw [placeLoop_cons_mem cands h hs' processed hm] at hmem
        exact ih processed k v hmem
      · cases hl : alookup cands h with
        | none =>
            rw [placeLoop_cons_none cands h hs' processed hm hl] at hmem
            exact ih processed k v hmem
        | some d =>
            rw [placeLoop_cons_some cands h hs' processed d hm hl] at hmem
            rcases List.mem_cons.mp hmem with heq | hmem'
            · rw [Prod.mk.injEq] at heq
              rw [heq.1, heq.2]
              exact hl
            · exact ih (h :: processed) k v hmem'

theorem placeLoop_mem_of_keys {α β : Type} [DecidableEq α] (cands : List (α × β)) :
    ∀ (hs processed : List α) (k : α) (v : β),
      k ∈ (placeLoop cands hs processed).map Prod.fst →
      alookup cands k = some v →
      (k, v) ∈ placeLoop cands hs processed := by
  intro hs
  induction hs with
  | nil => intro processed k v hk _; simp [placeLoop_nil] at hk
  | cons h hs' ih =>
      intro processed k v hk hv
      by_cases hm : h ∈ processed
      · rw [placeLoop_cons_mem cands h hs' processed hm] at hk ⊢
        exact ih processed k v hk hv
      · cases hl : alookup cands h with
        | none =>
            rw [placeLoop_cons_none cands h hs' processed hm hl] at hk ⊢
            exact ih processed k v hk hv
        | some d =>
            rw [placeLoop_cons_some cands h hs' processed d hm hl] at hk ⊢
            rw [List.map_cons, List.mem_cons] at hk
            rcases hk with rfl | hk
            · rw [hv, Option.some.injEq] at hl
              rw [hl]
              exact List.mem_cons_self _ _
            · exact List.mem_cons_of_mem _ (ih (h :: processed) k v hk hv)

theorem ordered_chapters_eq {α β : Type} [DecidableEq α] (cands : List (α × β))
    (spine : List α) :
    ordered_chapters cands spine =
      placeLoop cands
          (spine.filter (fun h => decide (h ∈ cands.map Prod.fst))) [] ++
        cands.filter (fun c => decide (¬ (c.1 ∈ (placeLoop cands
          (spine.filter (fun h => decide (h ∈ cands.map Prod.fst)))
            []).map Prod.fst))) := rfl

theorem map_fst_filter_key {α β : Type} (q : α → Bool) :
    ∀ (l : List (α × β)),
      (l.filter (fun p => q p.1)).map Prod.fst = (l.map Prod.fst).filter q := by
  intro l
  induction l with
  | nil => rfl
  | cons p l' ih =>
      cases hq : q p.1 with
      | true => simp [List.filter_cons, hq, ih]
      | false => simp [List.filter_cons, hq, ih]

theorem spineFilter_sub {α β : Type} [DecidableEq α] (cands : List (α × β))
    (spine : List α) :
    ∀ h ∈ spine.filter (fun h => decide (h ∈ cands.map Prod.fst)),
      h ∈ cands.map Prod.fst := by
  intro h hh
  have := (List.mem_filter.mp hh).2
  exact of_decide_eq_true this

theorem ordered_chapters_keys {α β : Type} [DecidableEq α] (cands : List (α × β))
    (spine : List α) :
    (ordered_chapters cands spine).map Prod.fst =
      dedupFirst (spine.filter (fun h => decide (h ∈ cands.map Prod.fst))) ++
        (cands.map Prod.fst).filter (fun h => decide (¬ h ∈ spine)) := by
  rw [ordered_chapters_eq, List.map_append,
    placeLoop_keys cands _ [] (spineFilter_sub cands spine),
    map_fst_filter_key (fun a => decide (¬ a ∈ dedupFirstAux []
      (spine.filter (fun h => decide (h ∈ cands.map Prod.fst))))) cands]
  unfold dedupFirst
  congr 1
  refine List.filter_congr ?_
  intro h hmem
  refine decide_eq_decide.mpr ?_
  rw [mem_dedupFirstAux]
  simp only [List.not_mem_nil, not_false_eq_true, and_true, List.mem_filter,
    decide_eq_true_eq]
  constructor
  · intro hn hsp
    exact hn ⟨hsp, hmem⟩
  · intro hn hc
    exact hn hc.1

theorem ordered_chapters_keys_nodup {α β : Type} [DecidableEq α]
    (cands : List (α × β)) (spine : List α)
    (hnd : (cands.map Prod.fst).Nodup) :
    ((ordered_chapters cands spine).map Prod.fst).Nodup := by
  rw [ordered_chapters_eq, List.map_append,
    placeLoop_keys cands _ [] (spineFilter_sub cands spine),
    map_fst_filter_key (fun a => decide (¬ a ∈ dedupFirstAux []
      (spine.filter (fun h => decide (h ∈ cands.map Prod.fst))))) cands]
  rw [List.nodup_append]
  refine ⟨nodup_dedupFirstAux _ [], hnd.filter _, ?_⟩
  intro a ha hb
  have hb2 := (List.mem_filter.mp hb).2
  exact (of_decide_eq_true hb2) ha

theorem ordered_chapters_perm {α β : Type} [DecidableEq α] (cands : List (α × β))
    (spine : List α) (hnd : (cands.map Prod.fst).Nodup) :
    (ordered_chapters cands spine).Perm cands := by
  have hnd1 : (ordered_chapters cands spine).Nodup :=
    List.Nodup.of_map Prod.fst (ordered_chapters_keys_nodup cands spine hnd)
  have hnd2 : cands.Nodup := List.Nodup.of_map Prod.fst hnd
  rw [List.perm_ext_iff_of_nodup hnd1 hnd2]
  intro x
  obtain ⟨k, v⟩ := x
  rw [ordered_chapters_eq, List.mem_append]
  constructor
  · intro hmem
    rcases hmem with hmem | hmem
    · exact alookup_mem cands k v (placeLoop_mem_alookup cands _ [] k v hmem)
    · exact (List.mem_filter.mp hmem).1
  · intro hmem
    by_cases hk : k ∈ (placeLoop cands
        (spine.filter (fun h => decide (h ∈ cands.map Prod.fst))) []).map Prod.fst
    · exact Or.inl (placeLoop_mem_of_keys cands _ [] k v hk
        (alookup_of_mem_nodup cands k v hnd hmem))
    · refine Or.inr (List.mem_filter.mpr ⟨hmem, ?_⟩)
      exact decide_eq_true hk

theorem idxOf_cons {α : Type} [DecidableEq α] (b a : α) (l : List α) :
    idxOf a (b :: l) = if b = a then 0 else idxOf a l + 1 := rfl

theorem idxOf_ne {α : Type} [DecidableEq α] {x y : α} {l : List α}
    (h : idxOf x l < idxOf y l) : x ≠ y := by
  intro heq
  rw [heq] at h
  exact Nat.lt_irrefl _ h

theorem idxOf_append_left {α : Type} [DecidableEq α] (x : α) (l2 : List α) :
    ∀ (l1 : List α), x ∈ l1 → idxOf x (l1 ++ l2) = idxOf x l1 := by
  intro l1
  induction l1 with
  | nil => intro h; simp at h
  | cons b l1' ih =>
      intro hmem
      by_cases hb : b = x
      · rw [List.cons_append, idxOf_cons, if_pos hb, idxOf_cons, if_pos hb]
      · have hx : x ∈ l1' := by
          rcases List.mem_cons.mp hmem with rfl | h
          · exact absurd rfl hb
          · exact h
        rw [List.cons_append, idxOf_cons, if_neg hb, idxOf_cons, if_neg hb,
          ih hx]

theorem idxOf_filter_lt {α : Type} [DecidableEq α] (q : α → Bool) (x y : α)
    (hqx : q x = true) (_hqy : q y = true) :
    ∀ (l : List α), x ∈ l → y ∈ l → idxOf x l < idxOf y l →
      idxOf x (l.filter q) < idxOf y (l.filter q) := by
  intro l
  induction l with
  | nil => intro hx _ _; simp at hx
  | cons b l' ih =>
      intro hx hy hlt
      have hxy : x ≠ y := idxOf_ne hlt
      by_cases hbx : b = x
      · have hby : ¬ b = y := fun h => hxy (hbx.symm.trans h)
        have hqb : q b = true := hbx ▸ hqx
        rw [List.filter_cons_of_pos hqb, idxOf_cons, if_pos hbx, idxOf_cons,
          if_neg hby]
        exact Nat.succ_pos _
      · by_cases hby : b = y
        · rw [idxOf_cons, if_neg hbx, idxOf_cons, if_pos hby] at hlt
          exact absurd hlt (Nat.not_lt_zero _)
        · rw [idxOf_cons, if_neg hbx, idxOf_cons, if_neg hby] at hlt
          have hlt' : idxOf x l' < idxOf y l' := Nat.lt_of_succ_lt_succ hlt
          have hx' : x ∈ l' := by
            rcases List.mem_cons.mp hx with rfl | h
            · exact absurd rfl hbx
            · exact h
          have hy' : y ∈ l' := by
            rcases List.mem_cons.mp hy with rfl | h
            · exact absurd rfl hby
            · exact h
          cases hqb : q b with
          | true =>
              rw [List.filter_cons_of_pos hqb, idxOf_cons, if_neg hbx,
                idxOf_cons, if_neg hby]
              exact Nat.succ_lt_succ (ih hx' hy' hlt')
          | false =>
              rw [List.filter_cons_of_neg (by simp [hqb])]
              exact ih hx' hy' hlt'

theorem idxOf_dedupFirstAux_lt {α : Type} [DecidableEq α] (x y : α) :
    ∀ (l seen : List α), ¬ x ∈ seen → ¬ y ∈ seen → x ∈ l → y ∈ l →
      idxOf x l < idxOf y l →
      idxOf x (dedupFirstAux seen l) < idxOf y (dedupFirstAux seen l) := by
  intro l
  induction l with
  | nil => intro seen _ _ hx _ _; simp at hx
  | cons b l' ih =>
      intro seen hxs hys hx hy hlt
      have hxy : x ≠ y := idxOf_ne hlt
      by_cases hb : b ∈ seen
      · have hbx : ¬ b = x := fun h => hxs (h ▸ hb)
        have hby : ¬ b = y := fun h => hys (h ▸ hb)
        rw [idxOf_cons, if_neg hbx, idxOf_cons, if_neg hby] at hlt
        have hx' : x ∈ l' := by
          rcases List.mem_cons.mp hx with rfl | h
          · exact absurd rfl hbx
          · exact h
        have hy' : y ∈ l' := by
          rcases List.mem_cons.mp hy with rfl | h
          · exact absurd rfl hby
          · exact h
        rw [dedupFirstAux_cons, if_pos hb]
        exact ih seen hxs hys hx' hy' (Nat.lt_of_succ_lt_succ hlt)
      · rw [dedupFirstAux_cons, if_neg hb]
        by_cases hbx : b = x
        · have hby : ¬ b = y := fun h => hxy (hbx.symm.trans h)
          rw [idxOf_cons, if_pos hbx, idxOf_cons, if_neg hby]
          exact Nat.succ_pos _
        · by_cases hby : b = y
          · rw [idxOf_cons, if_neg hbx, idxOf_cons, if_pos hby] at hlt
            exact absurd hlt (Nat.not_lt_zero _)
          · rw [idxOf_cons, if_neg hbx, idxOf_cons, if_neg hby] at hlt
            have hx' : x ∈ l' := by
              rcases List.mem_cons.mp hx with rfl | h
              · exact absurd rfl hbx
              · exact h
            have hy' : y ∈ l' := by
              rcases List.mem_cons.mp hy with rfl | h
              · exact absurd rfl hby
              · exact h
            have hxs' : ¬ x ∈ b :: seen := by
              intro h
              rcases List.mem_cons.mp h with rfl | h
              · exact hbx rfl
              · exact hxs h
            have hys' : ¬ y ∈ b :: seen := by
              intro h
              rcases List.mem_cons.mp h with rfl | h
              · exact hby rfl
              · exact hys h
            rw [idxOf_cons, if_neg hbx, idxOf_cons, if_neg hby]
            exact Nat.succ_lt_succ
              (ih (b :: seen) hxs' hys' hx' hy' (Nat.lt_of_succ_lt_succ hlt))

theorem ordered_chapters_spine_order {α β : Type} [DecidableEq α]
    (cands : List (α × β)) (spine : List α) (x y : α)
    (hx : x ∈ cands.map Prod.fst) (hy : y ∈ cands.map Prod.fst)
    (hxs : x ∈ spine) (hys : y ∈ spine)
    (hlt : idxOf x spine < idxOf y spine) :
    idxOf x ((ordered_chapters cands spine).map Prod.fst) <
      idxOf y ((ordered_chapters cands spine).map Prod.fst) := by
  have hqx : decide (x ∈ cands.map Prod.fst) = true := decide_eq_true hx
  have hqy : decide (y ∈ cands.map Prod.fst) = true := decide_eq_true hy
  have hxS : x ∈ spine.filter (fun h => decide (h ∈ cands.map Prod.fst)) :=
    List.mem_filter.mpr ⟨hxs, hqx⟩
  have hyS : y ∈ spine.filter (fun h => decide (h ∈ cands.map Prod.fst)) :=
    List.mem_filter.mpr ⟨hys, hqy⟩
  have hlt1 := idxOf_filter_lt (fun h => decide (h ∈ cands.map Prod.fst))
    x y hqx hqy spine hxs hys hlt
  have hlt2 := idxOf_dedupFirstAux_lt x y
    (spine.filter (fun h => decide (h ∈ cands.map Prod.fst))) []
    (List.not_mem_nil x) (List.not_mem_nil y) hxS hyS hlt1
  have hxD : x ∈ dedupFirstAux []
      (spine.filter (fun h => decide (h ∈ cands.map Prod.fst))) :=
    (mem_dedupFirstAux x _ []).mpr ⟨hxS, List.not_mem_nil x⟩
  have hyD : y ∈ dedupFirstAux []
      (spine.filter (fun h => decide (h ∈ cands.map Prod.fst))) :=
    (mem_dedupFirstAux y _ []).mpr ⟨hyS, List.not_mem_nil y⟩
  rw [ordered_chapters_eq, List.map_append,
    placeLoop_keys cands _ [] (spineFilter_sub cands spine),
    idxOf_append_left x _ _ hxD, idxOf_append_left y _ _ hyD]
  exact hlt2

/-- Claim C3: for surviving candidates with pairwise distinct locators (as
the extraction stage guarantees) and any declared spine, the
reading-order reconstruction returns a permutation of exactly the
surviving candidates; its locator sequence is the spine locators that
survive, first occurrences only and in spine order, followed by the
remaining locators in extraction order (so candidates absent from the
spine come after all spine-placed ones); and any two candidates that both
appear in the spine keep their spine-relative first-occurrence order. -/
theorem claim_C3 {α β : Type} [DecidableEq α] (cands : List (α × β))
    (spine : List α) (hnd : (cands.map Prod.fst).Nodup) :
    (ordered_chapters cands spine).Perm cands ∧
    (ordered_chapters cands spine).map Prod.fst =
      dedupFirst (spine.filter (fun h => decide (h ∈ cands.map Prod.fst))) ++
        (cands.map Prod.fst).filter (fun h => decide (¬ h ∈ spine)) ∧
    (∀ x y, x ∈ cands.map Prod.fst → y ∈ cands.map Prod.fst →
      x ∈ spine → y ∈ spine → idxOf x spine < idxOf y spine →
      idxOf x ((ordered_chapters cands spine).map Prod.fst) <
        idxOf y ((ordered_chapters cands spine).map Prod.fst)) :=
  ⟨ordered_chapters_perm cands spine hnd,
   ordered_chapters_keys cands spine,
   fun x y hx hy hxs hys hlt =>
     ordered_chapters_spine_order cands spine x y hx hy hxs hys hlt⟩

/-- Witness for claim C3 at the specification's scenario: extraction order
A, B, C with declared spine B, A, C yields output order B, A, C. -/
theorem claim_C3_witness :
    (ordered_chapters [("A", 0), ("B", 1), ("C", 2)] ["B", "A", "C"]).Perm
        [("A", 0), ("B", 1), ("C", 2)] ∧
    (ordered_chapters [("A", 0), ("B", 1), ("C", 2)] ["B", "A", "C"]).map
        Prod.fst =
      dedupFirst (["B", "A", "C"].filter
          (fun h => decide (h ∈ [("A", 0), ("B", 1), ("C", 2)].map Prod.fst))) ++
        ([("A", 0), ("B", 1), ("C", 2)].map Prod.fst).filter
          (fun h => decide (¬ h ∈ ["B", "A", "C"])) ∧
    (∀ x y, x ∈ [("A", 0), ("B", 1), ("C", 2)].map Prod.fst →
      y ∈ [("A", 0), ("B", 1), ("C", 2)].map Prod.fst →
      x ∈ ["B", "A", "C"] → y ∈ ["B", "A", "C"] →
      idxOf x ["B", "A", "C"] < idxOf y ["B", "A", "C"] →
      idxOf x ((ordered_chapters [("A", 0), ("B", 1), ("C", 2)]
          ["B", "A", "C"]).map Prod.fst) <
        idxOf y ((ordered_chapters [("A", 0), ("B", 1), ("C", 2)]
          ["B", "A", "C"]).map Prod.fst)) :=
  claim_C3 [("A", (0 : Nat)), ("B", 1), ("C", 2)] ["B", "A", "C"] (by decide)

/-- The scenario output itself: spine B, A, C reorders extraction order
A, B, C into B, A, C. -/
theorem ordered_chapters_scenario :
    ordered_chapters [("A", (0 : Nat)), ("B", 1), ("C", 2)] ["B", "A", "C"] =
      [("B", 1), ("A", 0), ("C", 2)] := by decide
